import Mathlib

/-!
Verification development for the search & relevance subsystem of the
personal-portal repository (app/utils/search_engine.py, app/utils/seo_analyzer.py,
app/utils/slug_generator.py).

Python strings are modelled as lists of characters (`Str`).  External library
collaborators that are not part of the repository (the jieba segmenter, the
pypinyin transliterator, unicodedata NFKD normalisation, the wall clock) are
modelled as explicit function parameters, so every theorem quantifies over their
behaviour.  SQLAlchemy query chains over the `content` table are modelled as
list filtering / stable sorting over an explicit database list.  Python's
`list.sort` / `sorted` are stable; a stable sort's output is uniquely
determined by the key order and the input order, so the structural stable
insertion sort `pySort` below is an exact model.
-/

namespace Portal

/-- Python strings, modelled as lists of characters. -/
abbrev Str := List Char

/-- Coerces a Lean string literal to the `Str` model. -/
def S (s : String) : Str := s.data

/-- The 26 ASCII uppercase letters. -/
def asciiUppers : Str := S "ABCDEFGHIJKLMNOPQRSTUVWXYZ"

/-- The 26 ASCII lowercase letters. -/
def asciiLowers : Str := S "abcdefghijklmnopqrstuvwxyz"

/-- ASCII uppercase test (the character class [A-Z]). -/
def isUpperA (c : Char) : Bool := asciiUppers.contains c

/-- ASCII lowercase test (the character class [a-z]). -/
def isLowerA (c : Char) : Bool := asciiLowers.contains c

/-- ASCII letter test (the regex character class [a-zA-Z]). -/
def isAlphaA (c : Char) : Bool := isLowerA c || isUpperA c

/-- Models Python str.lower() per character.  Python lowers the full Unicode
range; the repository's data is ASCII + CJK, and CJK characters are unchanged
by lowering, so the ASCII table is a faithful model on the inputs involved. -/
def lowerChar (c : Char) : Char :=
  match (asciiUppers.zip asciiLowers).find? (fun p => p.1 == c) with
  | some p => p.2
  | none => c

/-- Models Python str.lower(). -/
def lowerStr (s : Str) : Str := s.map lowerChar

/-- The whitespace characters recognised by Python str.strip() and the regex
class \s (ASCII range). -/
def isWs (c : Char) : Bool :=
  c == ' ' || c == '\t' || c == '\n' || c == '\r' || c == '\x0b' || c == '\x0c'

/-- Models Python str.strip(): remove leading and trailing whitespace. -/
def stripStr (s : Str) : Str :=
  ((s.dropWhile isWs).reverse.dropWhile isWs).reverse

/-- Bool test that pat occurs at the very start of s (used to model Python
substring search). -/
def leadMatch : Str → Str → Bool
  | [], _ => true
  | _ :: _, [] => false
  | a :: as, b :: bs => a == b && leadMatch as bs

/-- Models the Python expression needle in hay (substring containment). -/
def hasSub (needle : Str) : Str → Bool
  | [] => needle.isEmpty
  | c :: rest => leadMatch needle (c :: rest) || hasSub needle rest

/-- Models a SQLAlchemy Column.contains(needle) filter, i.e. SQL
LIKE %needle%; SQLite's default LIKE is ASCII-case-insensitive, so both sides
are lowered. -/
def dbContains (hay needle : Str) : Bool := hasSub (lowerStr needle) (lowerStr hay)

/-- CJK unified ideographs, the regex class [一-鿿]. -/
def isCJK (c : Char) : Bool := 0x4e00 ≤ c.toNat && c.toNat ≤ 0x9fff

/-- Fuel-driven worker for `runsOf`. -/
def runsOfF (p : Char → Bool) : Nat → Str → List Str
  | 0, _ => []
  | _ + 1, [] => []
  | f + 1, c :: rest =>
    if p c then (c :: rest.takeWhile p) :: runsOfF p f (rest.dropWhile p)
    else runsOfF p f rest

/-- Models re.findall of a one-character-class-plus pattern such as
[a-zA-Z]+ or [一-鿿]+ : the maximal runs of characters satisfying p,
left to right. -/
def runsOf (p : Char → Bool) (s : Str) : List Str := runsOfF p s.length s

/-- Fuel-driven worker for `replaceAll`. -/
def replaceAllF (pat rep : Str) : Nat → Str → Str
  | 0, s => s
  | _ + 1, [] => []
  | f + 1, c :: rest =>
    match pat with
    | [] => c :: rest
    | p :: ps =>
      if leadMatch (p :: ps) (c :: rest) then rep ++ replaceAllF pat rep f (rest.drop ps.length)
      else c :: replaceAllF pat rep f rest

/-- Models Python str.replace(pat, rep): replace every non-overlapping
occurrence of pat, scanning left to right.  (Python's behaviour for an empty
pat never arises in the repository: every replaced pattern is non-empty; an
empty pat is mapped to the identity here.) -/
def replaceAll (pat rep : Str) (s : Str) : Str := replaceAllF pat rep s.length s

/-- Joins a list of words with single hyphens, modelling "-".join(words). -/
def joinDash : List Str → Str
  | [] => []
  | [w] => w
  | w :: ws => w ++ '-' :: joinDash ws

/-- Models re.split on a single-character class: split the string at every
character satisfying p (separators removed, empty fields kept). -/
def splitChars (p : Char → Bool) : Str → List Str
  | [] => [[]]
  | c :: rest =>
    match splitChars p rest with
    | [] => if p c then [[], []] else [[c]]
    | h :: t => if p c then [] :: h :: t else (c :: h) :: t

/-- Fuel-driven worker for `splitOnSub`. -/
def splitOnSubF (sep : Str) : Nat → Str → List Str
  | 0, s => [s]
  | _ + 1, [] => [[]]
  | f + 1, c :: rest =>
    match sep with
    | [] => [c :: rest]
    | p :: ps =>
      if leadMatch (p :: ps) (c :: rest) then [] :: splitOnSubF sep f (rest.drop ps.length)
      else
        match splitOnSubF sep f rest with
        | [] => [[c]]
        | h :: t => (c :: h) :: t

/-- Models Python str.split(sep) for a non-empty separator string: split at
every non-overlapping occurrence of sep, scanning left to right. -/
def splitOnSub (sep : Str) (s : Str) : List Str := splitOnSubF sep s.length s

/-- Stable insertion used by `pySort`: x is placed after every element
strictly smaller than it under le, and before the first element that is not,
so that elements comparing equal keep their original relative order. -/
def sinsert (le : α → α → Bool) (x : α) : List α → List α
  | [] => [x]
  | y :: ys => if le y x && !(le x y) then y :: sinsert le x ys else x :: y :: ys

/-- Models Python's stable sort (list.sort / sorted): a stable sort's output
is uniquely determined, so this structural stable insertion sort gives exactly
the same list as CPython's timsort for any total preorder le. -/
def pySort (le : α → α → Bool) (l : List α) : List α := l.foldr (sinsert le) []

/-- Rounds a rational to 2 decimal places, half to even, modelling Python's
round(x, 2). -/
def round2 (q : ℚ) : ℚ :=
  let n : ℤ := Int.floor (q * 100)
  let frac : ℚ := q * 100 - n
  let r : ℤ :=
    if frac < 1 / 2 then n
    else if 1 / 2 < frac then n + 1
    else if n % 2 = 0 then n else n + 1
  (r : ℚ) / 100

/-! ## Data model (app/models/content.py, app/models/tag.py)

Only the columns read by the search core are modelled.  Nullable text columns
(summary, content) are modelled as `Str` with the empty string standing for
SQL NULL: the search core only ever reads them through Python truthiness and
substring containment, under which NULL and the empty string are
indistinguishable.  Integer counters default to 0 in the schema, and the core
reads them through x or 0 / truthiness, under which NULL and 0 are likewise
indistinguishable, so they are modelled as Nat.  created_at is a Unix
timestamp in seconds. -/

/-- A row of the tag table (app/models/tag.py): only id and name are read by
the search core. -/
structure ContentTag where
  id : Nat
  name : Str
deriving DecidableEq, Repr

/-- A row of the content table (app/models/content.py), restricted to the
columns the search core reads.  The source column named content (the
Markdown body) keeps its name. -/
structure Content where
  id : Nat
  title : Str
  summary : Str
  content : Str
  category : Str
  is_published : Bool
  is_featured : Bool
  view_count : Nat
  like_count : Nat
  created_at : Int
  tags : List ContentTag
deriving DecidableEq, Repr

/-! ## SearchEngine (app/utils/search_engine.py)

The engine's jieba segmenter (jieba.lcut) and keyword extractor
(jieba.analyse.extract_tags) are external library collaborators; they are
passed in as the function parameters seg and analyse.  The database is passed
in as the list db; SQLAlchemy filter chains become list filters and ORDER BY
becomes a stable sort (the tie order of SQL ORDER BY is unspecified, and no
claim depends on it). -/

/-- SearchEngine.__init__: the stop-word set. -/
def searchStopWords : List Str :=
  [S "的", S "了", S "是", S "在", S "我", S "有", S "和", S "就", S "不", S "人",
   S "都", S "一", S "一个", S "上", S "也", S "很", S "到", S "说",
   S "要", S "去", S "你", S "会", S "着", S "没有", S "看", S "好", S "自己",
   S "这", S "那", S "这个", S "那个", S "什么", S "怎么",
   S "the", S "a", S "an", S "and", S "or", S "but", S "in", S "on", S "at",
   S "to", S "for", S "of", S "with", S "by", S "is", S "are"]

/-- SearchEngine.__init__: the field weight configuration. -/
def weightTitle : ℚ := 4 / 10

/-- Summary field weight. -/
def weightSummary : ℚ := 3 / 10

/-- Body (content) field weight. -/
def weightContent : ℚ := 2 / 10

/-- Tags field weight. -/
def weightTags : ℚ := 1 / 10

/-- SearchEngine._extract_keywords: jieba tokens of the lowered query plus
maximal ASCII-letter runs (re.findall of [a-zA-Z]+), filtered to length > 1
and non-stop-words, deduplicated.  Python's list(set(...)) has unspecified
order; dedup keeps first occurrences, and no claim depends on the order. -/
def extractKeywords (seg : Str → List Str) (query : Str) : List Str :=
  let words := seg (lowerStr query)
  let english_words := runsOf isAlphaA (lowerStr query)
  let all_words := words ++ english_words
  let keywords := all_words.filter fun w => decide (1 < w.length) && !(searchStopWords.contains w)
  keywords.dedup

/-- Number of keywords contained (case-insensitively, via the pre-lowered
text) in a field, modelling sum(1 for keyword in keywords if keyword in f). -/
def countKw (keywords : List Str) (loweredField : Str) : Nat :=
  (keywords.filter fun k => hasSub k loweredField).length

/-- SearchEngine._calculate_relevance_score, translated statement by
statement. -/
def calcRelevanceScore (c : Content) (keywords : List Str) (original_query : Str) : ℚ :=
  let score : ℚ := 0
  let score := score + (countKw keywords (lowerStr c.title) : ℚ) * weightTitle * 10
  let score :=
    if c.summary ≠ [] then score + (countKw keywords (lowerStr c.summary) : ℚ) * weightSummary * 10
    else score
  let score :=
    if c.content ≠ [] then score + (countKw keywords (lowerStr c.content) : ℚ) * weightContent * 10
    else score
  let score :=
    if c.tags ≠ [] then
      let tag_names := c.tags.map fun t => lowerStr t.name
      let tag_matches := (keywords.filter fun k => tag_names.any fun tn => hasSub k tn).length
      score + (tag_matches : ℚ) * weightTags * 10
    else score
  let score :=
    if hasSub (lowerStr original_query) (lowerStr c.title) then score + 20
    else if c.summary ≠ [] ∧ hasSub (lowerStr original_query) (lowerStr c.summary) then score + 15
    else if c.content ≠ [] ∧ hasSub (lowerStr original_query) (lowerStr c.content) then score + 10
    else score
  let score := if c.is_featured then score + 5 else score
  let score :=
    if 100 < c.view_count then score + min ((c.view_count : ℚ) / 100) 10 else score
  round2 score

/-- One element of the results list of full_text_search.  The highlight entry
(a marked-up copy of the same item's title/summary/body) is not modelled: no
claim observes it and it carries no further content items. -/
structure SearchItem where
  content : Content
  score : ℚ
deriving DecidableEq, Repr

/-- The dictionary returned by full_text_search. -/
structure SearchResponse where
  results : List SearchItem
  total : Nat
  page : Nat
  per_page : Nat
  total_pages : Nat
  query : Str
  keywords : List Str
  category : Option Str
  sort_by : Str
deriving DecidableEq, Repr

/-- SearchEngine._empty_result. -/
def emptyResult : SearchResponse :=
  { results := [], total := 0, page := 1, per_page := 20, total_pages := 0,
    query := [], keywords := [], category := none, sort_by := S "relevance" }

/-- The candidate filter of full_text_search: published, optional category
equality, and at least one keyword occurring in title, summary or body
(Content.title.contains(kw) OR ...). -/
def searchCandidates (db : List Content) (keywords : List Str) (category : Option Str) :
    List Content :=
  let base := db.filter fun c => c.is_published
  let base : List Content :=
    match category with
    | some cat => base.filter (fun c : Content => c.category == cat)
    | none => base
  base.filter fun c =>
    keywords.any fun k => dbContains c.title k || dbContains c.summary k || dbContains c.content k

/-- The sort step of full_text_search: Python list.sort(key=..., reverse=True)
on the scored pairs, by the requested key; any other sort_by value leaves the
scored list unsorted, as in the source. -/
def sortScored (sort_by : Str) (l : List (Content × ℚ)) : List (Content × ℚ) :=
  if sort_by = S "relevance" then pySort (fun a b => decide (b.2 ≤ a.2)) l
  else if sort_by = S "date" then pySort (fun a b => decide (b.1.created_at ≤ a.1.created_at)) l
  else if sort_by = S "views" then pySort (fun a b => decide (b.1.view_count ≤ a.1.view_count)) l
  else if sort_by = S "likes" then pySort (fun a b => decide (b.1.like_count ≤ a.1.like_count)) l
  else l

/-- The fully scored and sorted candidate list of full_text_search (the value
of scored_results after the sort step). -/
def searchRanking (seg : Str → List Str) (db : List Content) (query : Str)
    (category : Option Str) (sort_by : Str) : List (Content × ℚ) :=
  let keywords := extractKeywords seg query
  let scored := (searchCandidates db keywords category).map fun c =>
    (c, calcRelevanceScore c keywords query)
  sortScored sort_by scored

/-- SearchEngine.full_text_search.  The source's third early return (empty
search_conditions) is unreachable once keywords is non-empty and is subsumed
by the keyword check. -/
def fullTextSearch (seg : Str → List Str) (db : List Content) (query : Str)
    (category : Option Str) (page per_page : Nat) (sort_by : Str) : SearchResponse :=
  if stripStr query = [] then emptyResult
  else
    let keywords := extractKeywords seg query
    if keywords = [] then emptyResult
    else
      let sorted := searchRanking seg db query category sort_by
      let total := sorted.length
      let start := (page - 1) * per_page
      let paged := (sorted.drop start).take per_page
      { results := paged.map fun p => { content := p.1, score := p.2 },
        total := total, page := page, per_page := per_page,
        total_pages := (total + per_page - 1) / per_page,
        query := query, keywords := keywords, category := category, sort_by := sort_by }

/-- The ORDER BY view_count DESC, created_at DESC comparison shared by the
category/keyword recommenders and trending. -/
def byViewsCreated (a b : Content) : Bool :=
  decide (b.view_count < a.view_count) ||
    (b.view_count == a.view_count && decide (b.created_at ≤ a.created_at))

/-- Number of tags of c whose id occurs among the tags of a: the COUNT of the
join rows in the grouped tag query. -/
def sharedTagCount (a c : Content) : Nat :=
  (c.tags.filter fun t => a.tags.any fun t2 => t2.id == t.id).length

/-- SearchEngine._get_related_by_tags: published items other than content
sharing at least one tag, ordered by shared-tag count DESC then created_at
DESC, limited. -/
def relatedByTags (db : List Content) (content : Content) (limit : Nat) : List Content :=
  if content.tags = [] then []
  else
    let cands := db.filter fun c =>
      c.id != content.id && c.is_published && decide (0 < sharedTagCount content c)
    (pySort
      (fun a b =>
        decide (sharedTagCount content b < sharedTagCount content a) ||
          (sharedTagCount content b == sharedTagCount content a &&
            decide (b.created_at ≤ a.created_at)))
      cands).take limit

/-- SearchEngine._get_related_by_category. -/
def relatedByCategory (db : List Content) (content : Content) (limit : Nat) : List Content :=
  (pySort byViewsCreated (db.filter fun c =>
      c.category == content.category && c.id != content.id && c.is_published)).take limit

/-- SearchEngine._get_related_by_keywords: jieba.analyse.extract_tags over
title + " " + body (top 5) is the external analyse parameter. -/
def relatedByKeywords (analyse : Str → Nat → List Str) (db : List Content)
    (content : Content) (limit : Nat) : List Content :=
  if content.content = [] then []
  else
    let keywords := analyse (content.title ++ S " " ++ content.content) 5
    if keywords = [] then []
    else
      (pySort byViewsCreated (db.filter fun c =>
          c.id != content.id && c.is_published &&
            keywords.any fun k => dbContains c.title k || dbContains c.content k)).take limit

/-- One value of the related_contents dict of _get_related_mixed. -/
structure RelEntry where
  content : Content
  score : Nat
  reason : Str
deriving DecidableEq, Repr

/-- The Python k in d test on an insertion-ordered association list. -/
def keyMem (m : List (Nat × RelEntry)) (k : Nat) : Bool := m.any fun p => p.1 == k

/-- Python dict assignment d[k] = v on an insertion-ordered association list:
an existing key keeps its position and gets the new value, a new key is
appended. -/
def dictSet (m : List (Nat × RelEntry)) (k : Nat) (v : RelEntry) : List (Nat × RelEntry) :=
  if keyMem m k then m.map fun p => if p.1 == k then (p.1, v) else p
  else m ++ [(k, v)]

/-- The d[k].score += delta or insert pattern of _get_related_mixed. -/
def dictAdd (m : List (Nat × RelEntry)) (k : Nat) (delta : Nat) (v : RelEntry) :
    List (Nat × RelEntry) :=
  if keyMem m k then
    m.map fun p => if p.1 == k then (p.1, { p.2 with score := p.2.score + delta }) else p
  else m ++ [(k, v)]

/-- The dict value a tag-mode candidate is inserted with. -/
def tagEntry (c : Content) : RelEntry := { content := c, score := 10, reason := S "tags" }

/-- The dict value a category-mode candidate is inserted with when new. -/
def catEntry (c : Content) : RelEntry := { content := c, score := 5, reason := S "category" }

/-- The dict value a keyword-mode candidate is inserted with when new. -/
def kwEntry (c : Content) : RelEntry := { content := c, score := 3, reason := S "keywords" }

/-- SearchEngine._get_related_mixed, translated step by step: tag candidates
enter with score 10, category candidates add 5, keyword candidates add 3, the
dict values (in insertion order) are stably sorted by score descending and
the top limit contents are returned. -/
def relatedMixed (analyse : Str → Nat → List Str) (db : List Content) (content : Content)
    (limit : Nat) : List Content :=
  let m : List (Nat × RelEntry) := []
  let tag_related := relatedByTags db content (limit * 2)
  let m := tag_related.foldl (fun m item => dictSet m item.id (tagEntry item)) m
  let category_related := relatedByCategory db content limit
  let m := category_related.foldl (fun m item => dictAdd m item.id 5 (catEntry item)) m
  let keyword_related := relatedByKeywords analyse db content limit
  let m := keyword_related.foldl (fun m item => dictAdd m item.id 3 (kwEntry item)) m
  let sorted := pySort (fun a b => decide (b.score ≤ a.score)) (m.map Prod.snd)
  (sorted.take limit).map fun e => e.content

/-- SearchEngine.get_related_content: method dispatch, defaulting to mixed. -/
def getRelatedContent (analyse : Str → Nat → List Str) (db : List Content) (content : Content)
    (limit : Nat) (method : Str) : List Content :=
  if method = S "tags" then relatedByTags db content limit
  else if method = S "category" then relatedByCategory db content limit
  else if method = S "keywords" then relatedByKeywords analyse db content limit
  else relatedMixed analyse db content limit

/-- SearchEngine.get_trending_content: published items created within the last
days days (timestamps in seconds), ordered by view_count DESC then created_at
DESC, limited.  now is the wall-clock parameter. -/
def getTrendingContent (db : List Content) (now : Int) (days : Nat) (limit : Nat) :
    List Content :=
  let since := now - 86400 * days
  (pySort byViewsCreated
    (db.filter fun c => c.is_published && decide (since ≤ c.created_at))).take limit

/-! ## SEOAnalyzer (app/utils/seo_analyzer.py)

The analyzer's Chinese-facing issue and recommendation strings are modelled by
the constructors of `Msg`, one per distinct source string (parameterised where
the source interpolates a value).  Only the fields the claims observe (score,
issues, recommendations, keywords) are carried; the purely informational
meta_analysis / content_analysis / readability sub-dictionaries are output
metadata never read back by the scoring logic. -/

/-- The issue and recommendation strings of SEOAnalyzer, one constructor per
distinct source string. -/
inductive Msg where
  | missingTitle
  | addDescriptiveTitle
  | titleSlightlyLong
  | titleTooShort
  | titleTooLong
  | addTitleKeywords
  | missingMetaDescription
  | addMetaDescription
  | metaSlightlyLong
  | metaTooShort
  | metaTooLong
  | emptyContent
  | contentTooShort
  | missingH1
  | addH2
  | useLists
  | addLinks
  | tooManyLinks
  | addImages
  | imagesMissingAlt (missing : Nat)
  | noKeywordPattern
  | keywordDensityTooHigh (maxDensity : ℚ)
  | increaseKeywordFrequency
  | sentencesTooLong
  | moreParagraphs
  | simplerWords
  | urlTooLong
  | cleanerUrlStructure
deriving DecidableEq, Repr

/-- Score plus the issue/recommendation strings appended by one sub-analyzer,
in emission order. -/
structure SubResult where
  score : Nat
  issues : List Msg
  recommendations : List Msg
deriving DecidableEq, Repr

/-- SEOAnalyzer.__init__: the stop-word set (note: unlike the search engine's
list it stops at by and does not contain is / are). -/
def seoStopWords : List Str :=
  [S "的", S "了", S "是", S "在", S "我", S "有", S "和", S "就", S "不", S "人",
   S "都", S "一", S "一个", S "上", S "也", S "很", S "到", S "说",
   S "要", S "去", S "你", S "会", S "着", S "没有", S "看", S "好", S "自己",
   S "这", S "那", S "这个", S "那个", S "什么", S "怎么",
   S "the", S "a", S "an", S "and", S "or", S "but", S "in", S "on", S "at",
   S "to", S "for", S "of", S "with", S "by"]

/-- The word-character class of Python's regex \b boundaries (\w): ASCII
alphanumerics, underscore, and - for the scripts this repository handles -
CJK ideographs (which Python's Unicode \w also treats as word characters). -/
def isWordChar (c : Char) : Bool := isAlphaA c || c.isDigit || c == '_' || isCJK c

/-- Models re.findall of \b[a-zA-Z]{2,}\b : the maximal word-character runs
that consist purely of ASCII letters and have length at least 2 (a run
touching a digit/underscore/ideograph has no word boundary inside it, so
partial runs never match). -/
def wordRuns (s : Str) : List Str :=
  (runsOf isWordChar s).filter fun r => r.all isAlphaA && decide (2 ≤ r.length)

/-- SEOAnalyzer._extract_words: jieba tokens of length > 1 that are not stop
words, followed by the English words of the lowered text that are not stop
words. -/
def extractWords (seg : Str → List Str) (text : Str) : List Str :=
  let chinese_words := (seg text).filter fun w =>
    decide (1 < w.length) && !(seoStopWords.contains w)
  let english_words := (wordRuns (lowerStr text)).filter fun w => !(seoStopWords.contains w)
  chinese_words ++ english_words

/-- SEOAnalyzer._has_meaningful_keywords: at least two extracted words of
length > 2 outside the stop list. -/
def hasMeaningfulKeywords (seg : Str → List Str) (text : Str) : Bool :=
  let words := extractWords seg (lowerStr text)
  let meaningful := words.filter fun w => decide (2 < w.length) && !(seoStopWords.contains w)
  decide (2 ≤ meaningful.length)

/-- SEOAnalyzer._analyze_title (max 20 points). -/
def analyzeTitle (seg : Str → List Str) (title : Str) : SubResult :=
  if title = [] then
    { score := 0, issues := [Msg.missingTitle], recommendations := [Msg.addDescriptiveTitle] }
  else
    let tl := title.length
    let base : SubResult :=
      if 10 ≤ tl ∧ tl ≤ 60 then { score := 15, issues := [], recommendations := [] }
      else if 60 < tl ∧ tl ≤ 70 then
        { score := 12, issues := [Msg.titleSlightlyLong], recommendations := [] }
      else if tl < 10 then
        { score := 5, issues := [Msg.titleTooShort], recommendations := [] }
      else { score := 8, issues := [Msg.titleTooLong], recommendations := [] }
    if hasMeaningfulKeywords seg title then { base with score := base.score + 5 }
    else { base with recommendations := base.recommendations ++ [Msg.addTitleKeywords] }

/-- SEOAnalyzer._analyze_meta_description (max 15 points). -/
def analyzeMetaDescription (meta_description : Str) : SubResult :=
  if meta_description = [] then
    { score := 0, issues := [Msg.missingMetaDescription],
      recommendations := [Msg.addMetaDescription] }
  else
    let dl := meta_description.length
    if 120 ≤ dl ∧ dl ≤ 160 then { score := 15, issues := [], recommendations := [] }
    else if 160 < dl ∧ dl ≤ 200 then
      { score := 12, issues := [Msg.metaSlightlyLong], recommendations := [] }
    else if dl < 120 then { score := 8, issues := [Msg.metaTooShort], recommendations := [] }
    else { score := 5, issues := [Msg.metaTooLong], recommendations := [] }

/-- Length in characters at the head of s of a match of the regex
HASHES\s+.* (hashes copies of #, then at least one whitespace - \s also
matches newlines - then greedily to the end of the line), if any. -/
def hashMatchLen (hashes : Nat) (s : Str) : Option Nat :=
  if leadMatch (List.replicate hashes '#') s then
    let rest := s.drop hashes
    let ws := rest.takeWhile isWs
    if ws = [] then none
    else some (hashes + ws.length + ((rest.drop ws.length).takeWhile fun c => c ≠ '\n').length)
  else none

/-- Fuel-driven worker for `countMatchesFrom`. -/
def countMatchesFromF (matchAt : Str → Option Nat) : Nat → Str → Nat
  | 0, _ => 0
  | _ + 1, [] => 0
  | f + 1, c :: rest =>
    match matchAt (c :: rest) with
    | some n => 1 + countMatchesFromF matchAt f ((c :: rest).drop (max n 1))
    | none => countMatchesFromF matchAt f rest

/-- Models len(re.findall(pattern, s)) for an unanchored pattern whose
match-at-position length is matchAt: scan left to right, count
non-overlapping matches. -/
def countMatchesFrom (matchAt : Str → Option Nat) (s : Str) : Nat :=
  countMatchesFromF matchAt s.length s

/-- Match length at the head of s for the MULTILINE bullet-list pattern
^\s*[-*+]\s+.* (only tried at line starts). -/
def bulletMatchLen (s : Str) : Option Nat :=
  let ws := s.takeWhile isWs
  match s.drop ws.length with
  | [] => none
  | c :: rest2 =>
    if c == '-' || c == '*' || c == '+' then
      let ws2 := rest2.takeWhile isWs
      if ws2 = [] then none
      else
        some (ws.length + 1 + ws2.length +
          ((rest2.drop ws2.length).takeWhile fun ch => ch ≠ '\n').length)
    else none

/-- Fuel-driven worker for `countLineAnchored`; the Bool records whether the
current position is a line start (string start or just after a newline). -/
def countLineAnchoredF (matchAt : Str → Option Nat) : Nat → Bool → Str → Nat
  | 0, _, _ => 0
  | _ + 1, _, [] => 0
  | f + 1, atStart, c :: rest =>
    if atStart then
      match matchAt (c :: rest) with
      | some n =>
        let n' := max n 1
        let consumed := (c :: rest).take n'
        1 + countLineAnchoredF matchAt f (consumed.getLast? == some '\n') ((c :: rest).drop n')
      | none => countLineAnchoredF matchAt f (c == '\n') rest
    else countLineAnchoredF matchAt f (c == '\n') rest

/-- Models len(re.findall(pattern, s, re.MULTILINE)) for a ^-anchored
pattern: matches are only attempted at line starts. -/
def countLineAnchored (matchAt : Str → Option Nat) (s : Str) : Nat :=
  countLineAnchoredF matchAt s.length true s

/-- Index of the first ) in s with no newline before it (the non-greedy
.*?\) step of the link regex), if any. -/
def findCloseParen : Str → Option Nat
  | [] => none
  | c :: rest =>
    if c == ')' then some 0
    else if c == '\n' then none
    else (findCloseParen rest).map (· + 1)

/-- Index of the first position in s carrying ]( with no newline before it
(the non-greedy .*?\]\( step of the link regex), if any. -/
def findBracketParen : Str → Option Nat
  | [] => none
  | ']' :: '(' :: _ => some 0
  | c :: rest =>
    if c == '\n' then none
    else (findBracketParen rest).map (· + 1)

/-- Match length at the head of s for the Markdown link pattern
\[.*?\]\(.*?\) (the dot does not match newlines). -/
def linkMatchLen : Str → Option Nat
  | '[' :: rest =>
    match findBracketParen rest with
    | some j =>
      match findCloseParen (rest.drop (j + 2)) with
      | some k => some (1 + j + 2 + k + 1)
      | none => none
    | none => none
  | _ => none

/-- Match at the head of s for the Markdown image pattern
!\[([^\]]*)\]\(([^)]+)\), returning the alt text and the match length. -/
def imageMatchAt : Str → Option (Str × Nat)
  | '!' :: '[' :: rest =>
    let alt := rest.takeWhile fun c => c ≠ ']'
    (match rest.drop alt.length with
     | ']' :: '(' :: rest3 =>
       let url := rest3.takeWhile fun c => c ≠ ')'
       if url = [] then none
       else
         match rest3.drop url.length with
         | ')' :: _ => some (alt, 2 + alt.length + 2 + url.length + 1)
         | _ => none
     | _ => none)
  | _ => none

/-- Fuel-driven worker for `findImages`. -/
def findImagesF : Nat → Str → List Str
  | 0, _ => []
  | _ + 1, [] => []
  | f + 1, c :: rest =>
    match imageMatchAt (c :: rest) with
    | some (alt, n) => alt :: findImagesF f ((c :: rest).drop (max n 1))
    | none => findImagesF f rest

/-- Models re.findall of the image pattern: the alt texts of the
non-overlapping Markdown images, left to right. -/
def findImages (s : Str) : List Str := findImagesF s.length s

/-- SEOAnalyzer._analyze_content_structure (max 9 points): H1/H2 headings,
bullet lists, links. -/
def analyzeContentStructure (content : Str) : SubResult :=
  let h1_count := countMatchesFrom (hashMatchLen 1) content
  let h2_count := countMatchesFrom (hashMatchLen 2) content
  let r1 : SubResult :=
    if 0 < h1_count then { score := 3, issues := [], recommendations := [] }
    else { score := 0, issues := [Msg.missingH1], recommendations := [] }
  let r2 : SubResult :=
    if 0 < h2_count then { r1 with score := r1.score + 2 }
    else { r1 with recommendations := r1.recommendations ++ [Msg.addH2] }
  let list_count := countLineAnchored bulletMatchLen content
  let r3 : SubResult :=
    if 0 < list_count then { r2 with score := r2.score + 2 }
    else { r2 with recommendations := r2.recommendations ++ [Msg.useLists] }
  let link_count := countMatchesFrom linkMatchLen content
  if 0 < link_count then
    { score := r3.score + 2,
      issues := r3.issues ++ (if 10 < link_count then [Msg.tooManyLinks] else []),
      recommendations := r3.recommendations }
  else { r3 with recommendations := r3.recommendations ++ [Msg.addLinks] }

/-- SEOAnalyzer._analyze_images (max 5 points). -/
def analyzeImages (content : Str) : SubResult :=
  let images := findImages content
  if images ≠ [] then
    let images_with_alt := images.filter fun alt => !(stripStr alt).isEmpty
    if images_with_alt.length = images.length then
      { score := 5, issues := [], recommendations := [] }
    else
      { score := 3, issues := [Msg.imagesMissingAlt (images.length - images_with_alt.length)],
        recommendations := [] }
  else { score := 0, issues := [], recommendations := [Msg.addImages] }

/-- SEOAnalyzer._analyze_content_body (max 24 of the 25 budgeted points:
10 length + 9 structure + 5 images). -/
def analyzeContentBody (content : Str) : SubResult :=
  if content = [] then { score := 0, issues := [Msg.emptyContent], recommendations := [] }
  else
    let char_count := (content.filter fun c => c ≠ ' ' ∧ c ≠ '\n').length
    let lengthPart : SubResult :=
      if 500 ≤ char_count then { score := 10, issues := [], recommendations := [] }
      else if 300 ≤ char_count then { score := 8, issues := [], recommendations := [] }
      else { score := 5, issues := [Msg.contentTooShort], recommendations := [] }
    let st := analyzeContentStructure content
    let im := analyzeImages content
    { score := lengthPart.score + st.score + im.score,
      issues := lengthPart.issues ++ st.issues ++ im.issues,
      recommendations := lengthPart.recommendations ++ st.recommendations ++
        im.recommendations }

/-- The keyword table of _analyze_keywords: (word, count, density rounded to
2 decimals). -/
structure KwResult where
  score : Nat
  issues : List Msg
  recommendations : List Msg
  keywords : List (Str × Nat × ℚ)
deriving DecidableEq, Repr

/-- collections.Counter over words, iterated in first-occurrence order. -/
def wordCounts (words : List Str) : List (Str × Nat) :=
  words.dedup.map fun w => (w, (words.filter fun x => x == w).length)

/-- Counter.most_common(n): stable sort by count descending (ties keep
first-occurrence order), take n. -/
def mostCommon (n : Nat) (counts : List (Str × Nat)) : List (Str × Nat) :=
  (pySort (fun a b => decide (b.2 ≤ a.2)) counts).take n

/-- max(kw density for kw in keywords): the keyword list is non-empty where
this is used and every rounded density is non-negative, so the fold from 0
agrees with Python's max. -/
def maxDensity (kws : List (Str × Nat × ℚ)) : ℚ :=
  (kws.map fun p => p.2.2).foldl max 0

/-- The density-band branch of _analyze_keywords: 10 points for having
keywords at all, plus 10 more unless the maximum density is above 5 (a
keyword-stuffing issue) or below 0.5 (an increase-frequency
recommendation). -/
def densityVerdict (kws : List (Str × Nat × ℚ)) : KwResult :=
  let md := maxDensity kws
  if 5 < md then
    { score := 10, issues := [Msg.keywordDensityTooHigh md], recommendations := [],
      keywords := kws }
  else if md < 1 / 2 then
    { score := 10, issues := [], recommendations := [Msg.increaseKeywordFrequency],
      keywords := kws }
  else
    { score := 20, issues := [], recommendations := [], keywords := kws }

/-- SEOAnalyzer._analyze_keywords (max 20 points): extract words from
title + " " + content lowered, keep the top-20 most common words of length
> 2 outside the stop list with their densities, and apply the density-band
verdict. -/
def analyzeKeywords (seg : Str → List Str) (content title : Str) : KwResult :=
  let full_text := title ++ S " " ++ content
  let words := extractWords seg (lowerStr full_text)
  if words = [] then { score := 0, issues := [], recommendations := [], keywords := [] }
  else
    let total_words := words.length
    let keywords := ((mostCommon 20 (wordCounts words)).filter fun p =>
        decide (2 < p.1.length) && !(seoStopWords.contains p.1)).map fun p =>
      (p.1, p.2, round2 ((p.2 : ℚ) / (total_words : ℚ) * 100))
    if keywords ≠ [] then densityVerdict keywords
    else
      { score := 0, issues := [Msg.noKeywordPattern], recommendations := [], keywords := [] }

/-- SEOAnalyzer._analyze_readability (max 10 points). -/
def analyzeReadability (content : Str) : SubResult :=
  if content = [] then { score := 0, issues := [], recommendations := [] }
  else
    let sentences := ((splitChars (fun c =>
        c == '。' || c == '！' || c == '？' || c == '.' || c == '!' || c == '?') content).map
        stripStr).filter fun s => s ≠ []
    if sentences = [] then { score := 0, issues := [], recommendations := [] }
    else
      let avg : ℚ := ((sentences.map List.length).sum : ℚ) / (sentences.length : ℚ)
      let r1 : SubResult :=
        if avg ≤ 20 then { score := 5, issues := [], recommendations := [] }
        else if avg ≤ 30 then { score := 3, issues := [], recommendations := [] }
        else { score := 0, issues := [Msg.sentencesTooLong], recommendations := [] }
      let paragraphs := ((splitOnSub (S "\n\n") content).map stripStr).filter fun p => p ≠ []
      let r2 : SubResult :=
        if 3 ≤ paragraphs.length then { r1 with score := r1.score + 3 }
        else { r1 with recommendations := r1.recommendations ++ [Msg.moreParagraphs] }
      let complex_words := ((runsOf isCJK content).filter fun r => 4 ≤ r.length).length
      let total_chars := (content.filter isCJK).length
      if 0 < total_chars then
        if (complex_words : ℚ) / (total_chars : ℚ) < 1 / 10 then
          { r2 with score := r2.score + 2 }
        else { r2 with recommendations := r2.recommendations ++ [Msg.simplerWords] }
      else r2

/-- SEOAnalyzer._analyze_technical_seo: the base score of 10 is assigned
before the URL checks and is returned in every branch; a long URL only adds
an issue, and a URL with no alphanumeric/hyphen/underscore/slash character at
all adds a recommendation. -/
def analyzeTechnicalSeo (url : Str) : SubResult :=
  let score := 10
  if url ≠ [] then
    let lenPart : SubResult :=
      if url.length ≤ 100 then { score := score, issues := [], recommendations := [] }
      else { score := score, issues := [Msg.urlTooLong], recommendations := [] }
    if url.any fun c => isAlphaA c || c.isDigit || c == '-' || c == '_' || c == '/' then lenPart
    else { lenPart with recommendations := lenPart.recommendations ++ [Msg.cleanerUrlStructure] }
  else { score := score, issues := [], recommendations := [] }

/-- The analysis dictionary of SEOAnalyzer.analyze_content, restricted to the
fields the claims observe. -/
structure SeoAnalysis where
  score : Nat
  issues : List Msg
  recommendations : List Msg
  keywords : List (Str × Nat × ℚ)
deriving DecidableEq, Repr

/-- SEOAnalyzer.analyze_content: the six sub-analyzers in call order, total
score their sum. -/
def analyzeContent (seg : Str → List Str) (content title meta_description url : Str) :
    SeoAnalysis :=
  let t := analyzeTitle seg title
  let m := analyzeMetaDescription meta_description
  let cb := analyzeContentBody content
  let kw := analyzeKeywords seg content title
  let rd := analyzeReadability content
  let te := analyzeTechnicalSeo url
  { score := t.score + m.score + cb.score + kw.score + rd.score + te.score,
    issues := t.issues ++ m.issues ++ cb.issues ++ kw.issues ++ rd.issues ++ te.issues,
    recommendations := t.recommendations ++ m.recommendations ++ cb.recommendations ++
      kw.recommendations ++ rd.recommendations ++ te.recommendations,
    keywords := kw.keywords }

/-! ## SlugGenerator (app/utils/slug_generator.py)

External collaborators are passed as parameters: pin models
pypinyin.lazy_pinyin (one pinyin word per character of a CJK run), nf models
unicodedata.normalize('NFKD', .) followed by removing combining characters,
and now models datetime.now().strftime('%Y%m%d%H%M%S') (a non-empty digit
string). -/

/-- SlugGenerator.__init__: the common-word substitution table, in source
order (Python dicts iterate in insertion order). -/
def slugMappings : List (Str × Str) :=
  [(S "javascript", S "js"), (S "typescript", S "ts"), (S "python", S "py"),
   (S "artificial-intelligence", S "ai"), (S "machine-learning", S "ml"),
   (S "deep-learning", S "dl"), (S "application-programming-interface", S "api"),
   (S "user-interface", S "ui"), (S "user-experience", S "ux"), (S "database", S "db"),
   (S "development", S "dev"), (S "production", S "prod"),
   (S "人工智能", S "ai"), (S "机器学习", S "ml"), (S "深度学习", S "dl"),
   (S "数据库", S "database"), (S "应用程序", S "app"), (S "编程接口", S "api"),
   (S "用户界面", S "ui"), (S "用户体验", S "ux"), (S "开发", S "dev"),
   (S "生产", S "prod"), (S "测试", S "test"), (S "项目", S "project"),
   (S "系统", S "system"), (S "网站", S "website"), (S "博客", S "blog"),
   (S "文章", S "article"), (S "教程", S "tutorial"), (S "指南", S "guide")]

/-- SlugGenerator.__init__: the slug stop-word set. -/
def slugStopWords : List Str :=
  [S "the", S "a", S "an", S "and", S "or", S "but", S "in", S "on", S "at", S "to",
   S "for", S "of", S "with", S "by", S "is", S "are", S "was", S "were",
   S "的", S "了", S "是", S "在", S "我", S "有", S "和", S "就", S "不", S "都",
   S "一", S "一个", S "上", S "也", S "很", S "到", S "说", S "要", S "去", S "你",
   S "会", S "着"]

/-- SlugGenerator._apply_mappings: sequential str.replace over the table. -/
def applyMappings (text : Str) : Str :=
  slugMappings.foldl (fun t p => replaceAll p.1 p.2 t) text

/-- SlugGenerator._chinese_to_pinyin: each maximal CJK run found by
re.findall is replaced by its pinyin words joined with hyphens. -/
def chineseToPinyin (pin : Str → List Str) (text : Str) : Str :=
  (runsOf isCJK text).foldl (fun t run => replaceAll run (joinDash (pin run)) t) text

/-- SlugGenerator._clean_english_text: the punctuation substitution table in
source order, with each character c replaced by -word- (or a bare hyphen
when the table maps it to the empty string). -/
def slugCharReplacements : List (Char × Str) :=
  [('&', S "-and-"), ('+', S "-plus-"), ('@', S "-at-"), ('#', S "-hash-"),
   ('%', S "-percent-"), ('=', S "-equals-"), ('<', S "-lt-"), ('>', S "-gt-"),
   ('|', S "-or-"), ('\\', S "-backslash-"), ('/', S "-slash-"), ('?', S "-question-"),
   ('!', S "-exclamation-"), ('*', S "-star-"), ('\"', S "-quote-"), ('\'', S "-quote-"),
   ('(', S "-"), (')', S "-"), ('[', S "-"), (']', S "-"),
   ('\x7b', S "-"), ('\x7d', S "-"),
   ('：', S "-colon-"), ('；', S "-semicolon-"), ('，', S "-comma-"), ('。', S "-period-"),
   ('！', S "-exclamation-"), ('？', S "-question-"),
   ('（', S "-"), ('）', S "-"), ('【', S "-"), ('】', S "-")]

/-- SlugGenerator._clean_english_text: NFKD-normalise and strip combining
characters (the external nf), then apply the substitution table. -/
def cleanEnglishText (nf : Str → Str) (text : Str) : Str :=
  slugCharReplacements.foldl (fun t p => replaceAll [p.1] p.2 t) (nf text)

/-- SlugGenerator._remove_stop_words: split on hyphens, keep non-empty
non-stop words of length > 1, re-join with hyphens. -/
def removeStopWordsSlug (text : Str) : Str :=
  let words := splitChars (fun c => c == '-') text
  joinDash (words.filter fun w =>
    !w.isEmpty && !(slugStopWords.contains w) && decide (1 < w.length))

/-- Collapses every run of consecutive hyphens to a single hyphen, modelling
re.sub of -+ with a single hyphen. -/
def collapseDash : Str → Str
  | [] => []
  | [c] => [c]
  | a :: b :: rest =>
    if a == '-' && b == '-' then collapseDash (b :: rest)
    else a :: collapseDash (b :: rest)

/-- Removes trailing hyphens, modelling str.rstrip of the hyphen. -/
def rstripDash (s : Str) : Str := (s.reverse.dropWhile fun c => c == '-').reverse

/-- The character class kept by _normalize_slug: [a-zA-Z0-9-]. -/
def isSlugKeepChar (c : Char) : Bool := isAlphaA c || c.isDigit || c == '-'

/-- SlugGenerator._normalize_slug: replace every character outside
[a-zA-Z0-9-] with a hyphen, collapse hyphen runs, strip hyphens at both
ends. -/
def normalizeSlug (slug : Str) : Str :=
  let slug := slug.map fun c => if isSlugKeepChar c then c else '-'
  let slug := collapseDash slug
  (rstripDash (slug.dropWhile fun c => c == '-'))

/-- Index of the last hyphen of s, or -1 when there is none, modelling
str.rfind. -/
def rfindDash (s : Str) : Int :=
  match s.reverse.findIdx? (fun c => c == '-') with
  | some i => (s.length : Int) - 1 - i
  | none => -1

/-- SlugGenerator._truncate_slug: cut at max_length, move back to the last
hyphen when that lies beyond 70 percent of max_length, strip trailing
hyphens. -/
def truncateSlug (slug : Str) (max_length : Nat) : Str :=
  if slug.length ≤ max_length then slug
  else
    let truncated := slug.take max_length
    let last_dash := rfindDash truncated
    let truncated :=
      if (max_length : ℚ) * (7 / 10) < (last_dash : ℚ) then truncated.take last_dash.toNat
      else truncated
    rstripDash truncated

/-- SlugGenerator._generate_fallback_slug: post- followed by the timestamp. -/
def fallbackSlug (now : Str) : Str := S "post-" ++ now

/-- SlugGenerator._validate_slug: empty slugs fall back to the timestamp
slug, a leading digit gets a post- marker, and slugs shorter than 3
characters get a -post suffix. -/
def validateSlug (now : Str) (slug : Str) : Str :=
  match slug with
  | [] => fallbackSlug now
  | c :: rest =>
    let slug := if c.isDigit then S "post-" ++ (c :: rest) else c :: rest
    if slug.length < 3 then slug ++ S "-post" else slug

/-- SlugGenerator.generate_slug: the nine-step pipeline.  today models the
datetime.now().strftime('%Y%m%d') date marker used when include_date is
set. -/
def generateSlug (pin : Str → List Str) (nf : Str → Str) (now today : Str) (title : Str)
    (max_length : Nat) (use_pinyin include_date : Bool) : Str :=
  if title = [] then fallbackSlug now
  else
    let slug := stripStr (lowerStr title)
    let slug := applyMappings slug
    let slug := if use_pinyin then chineseToPinyin pin slug else slug
    let slug := cleanEnglishText nf slug
    let slug := removeStopWordsSlug slug
    let slug := normalizeSlug slug
    let slug := truncateSlug slug max_length
    let slug := if include_date then today ++ S "-" ++ slug else slug
    validateSlug now slug

/-! ## Library lemmas about the stable sort -/

theorem sinsert_perm (le : α → α → Bool) (x : α) (l : List α) :
    (sinsert le x l).Perm (x :: l) := by
  induction l with
  | nil => simp [sinsert]
  | cons y ys ih =>
    rw [sinsert]
    split
    · exact (ih.cons y).trans (List.Perm.swap x y ys)
    · exact List.Perm.refl _

theorem pySort_perm (le : α → α → Bool) (l : List α) : (pySort le l).Perm l := by
  induction l with
  | nil => simp [pySort]
  | cons y ys ih =>
    have h : pySort le (y :: ys) = sinsert le y (pySort le ys) := rfl
    rw [h]
    exact ((sinsert_perm le y (pySort le ys)).trans (ih.cons y))

theorem mem_pySort {le : α → α → Bool} {l : List α} {x : α} :
    x ∈ pySort le l ↔ x ∈ l :=
  (pySort_perm le l).mem_iff

theorem length_pySort (le : α → α → Bool) (l : List α) :
    (pySort le l).length = l.length :=
  (pySort_perm le l).length_eq

theorem pairwise_sinsert {le : α → α → Bool}
    (htrans : ∀ a b c, le a b = true → le b c = true → le a c = true)
    (htot : ∀ a b, le a b = true ∨ le b a = true) (x : α) {l : List α}
    (hl : l.Pairwise fun a b => le a b = true) :
    (sinsert le x l).Pairwise fun a b => le a b = true := by
  induction l with
  | nil => simp [sinsert]
  | cons y ys ih =>
    rw [sinsert]
    rcases List.pairwise_cons.mp hl with ⟨hy, hys⟩
    split
    · rename_i hcond
      refine List.pairwise_cons.mpr ⟨?_, ih hys⟩
      intro z hz
      have hz2 : z ∈ x :: ys := (sinsert_perm le x ys).mem_iff.mp hz
      rcases List.mem_cons.mp hz2 with rfl | hz3
      · exact ((Bool.and_eq_true _ _).mp hcond).1
      · exact hy z hz3
    · rename_i hcond
      have hxy : le x y = true := by
        rcases htot x y with h | h
        · exact h
        · by_contra hxy
          exact hcond (by simp [h, hxy])
      refine List.pairwise_cons.mpr ⟨?_, hl⟩
      intro z hz
      rcases List.mem_cons.mp hz with hz | hz
      · subst hz; exact hxy
      · exact htrans x y z hxy (hy z hz)

theorem pairwise_pySort {le : α → α → Bool}
    (htrans : ∀ a b c, le a b = true → le b c = true → le a c = true)
    (htot : ∀ a b, le a b = true ∨ le b a = true) (l : List α) :
    (pySort le l).Pairwise fun a b => le a b = true := by
  induction l with
  | nil => simp [pySort]
  | cons y ys ih => exact pairwise_sinsert htrans htot y ih

theorem sinsert_map (f : α → β) (le : β → β → Bool) (x : α) (l : List α) :
    sinsert le (f x) (l.map f) = (sinsert (fun a b => le (f a) (f b)) x l).map f := by
  induction l with
  | nil => simp [sinsert]
  | cons y ys ih =>
    simp only [List.map_cons, sinsert]
    split
    · rename_i h
      rw [ih]
      simp only [List.map_cons]
    · rename_i h
      simp only [List.map_cons]

theorem pySort_map (f : α → β) (le : β → β → Bool) (l : List α) :
    pySort le (l.map f) = (pySort (fun a b => le (f a) (f b)) l).map f := by
  induction l with
  | nil => simp [pySort]
  | cons y ys ih =>
    have h1 : pySort le ((y :: ys).map f) = sinsert le (f y) (pySort le (ys.map f)) := rfl
    have h2 : pySort (fun a b => le (f a) (f b)) (y :: ys) =
        sinsert (fun a b => le (f a) (f b)) y (pySort (fun a b => le (f a) (f b)) ys) := rfl
    rw [h1, h2, ih, sinsert_map]

/-! ## Membership lemmas for the query pipelines -/

theorem mem_sortScored {sb : Str} {l : List (Content × ℚ)} {p : Content × ℚ} :
    p ∈ sortScored sb l ↔ p ∈ l := by
  unfold sortScored
  split
  · exact mem_pySort
  · split
    · exact mem_pySort
    · split
      · exact mem_pySort
      · split
        · exact mem_pySort
        · exact Iff.rfl

theorem searchCandidates_published {db : List Content} {kw : List Str} {cat : Option Str}
    {c : Content} (h : c ∈ searchCandidates db kw cat) : c.is_published = true := by
  unfold searchCandidates at h
  rcases List.mem_filter.mp h with ⟨h1, -⟩
  cases cat with
  | none => exact (List.mem_filter.mp h1).2
  | some s => exact (List.mem_filter.mp (List.mem_filter.mp h1).1).2

theorem searchRanking_published {seg : Str → List Str} {db : List Content} {q : Str}
    {cat : Option Str} {sb : Str} {p : Content × ℚ}
    (h : p ∈ searchRanking seg db q cat sb) : p.1.is_published = true := by
  unfold searchRanking at h
  rcases List.mem_map.mp (mem_sortScored.mp h) with ⟨c, hc, hpc⟩
  have hpub := searchCandidates_published hc
  rw [← hpc]
  exact hpub

theorem fullTextSearch_published {seg : Str → List Str} {db : List Content} {q : Str}
    {cat : Option Str} {page per_page : Nat} {sb : Str} {r : SearchItem}
    (h : r ∈ (fullTextSearch seg db q cat page per_page sb).results) :
    r.content.is_published = true := by
  unfold fullTextSearch at h
  split at h
  · simp [emptyResult] at h
  · dsimp only at h
    split at h
    · simp [emptyResult] at h
    · rcases List.mem_map.mp h with ⟨p, hp, hpr⟩
      have hp2 : p ∈ searchRanking seg db q cat sb :=
        ((List.take_sublist _ _).trans (List.drop_sublist _ _)).mem hp
      have hpub := searchRanking_published hp2
      rw [← hpr]
      exact hpub

theorem relatedByTags_published {db : List Content} {a : Content} {lim : Nat} {c : Content}
    (h : c ∈ relatedByTags db a lim) : c.is_published = true := by
  unfold relatedByTags at h
  split at h
  · simp at h
  · have hc := mem_pySort.mp ((List.take_sublist _ _).mem h)
    have h2 := (List.mem_filter.mp hc).2
    simp only [Bool.and_eq_true] at h2
    exact h2.1.2

theorem relatedByCategory_published {db : List Content} {a : Content} {lim : Nat} {c : Content}
    (h : c ∈ relatedByCategory db a lim) : c.is_published = true := by
  unfold relatedByCategory at h
  have hc := mem_pySort.mp ((List.take_sublist _ _).mem h)
  have h2 := (List.mem_filter.mp hc).2
  simp only [Bool.and_eq_true] at h2
  exact h2.2

theorem relatedByKeywords_published {analyse : Str → Nat → List Str} {db : List Content}
    {a : Content} {lim : Nat} {c : Content}
    (h : c ∈ relatedByKeywords analyse db a lim) : c.is_published = true := by
  unfold relatedByKeywords at h
  split at h
  · simp at h
  · dsimp only at h
    split at h
    · simp at h
    · have hc := mem_pySort.mp ((List.take_sublist _ _).mem h)
      have h2 := (List.mem_filter.mp hc).2
      simp only [Bool.and_eq_true] at h2
      exact h2.1.2

theorem foldl_preserve {M : Type u_1} {γ : Type u_2} (step : M → γ → M) (inv : M → Prop)
    (Q : γ → Prop) (l : List γ) (hl : ∀ c ∈ l, Q c)
    (hstep : ∀ m c, inv m → Q c → inv (step m c)) :
    ∀ m0, inv m0 → inv (l.foldl step m0) := by
  induction l with
  | nil => intro m0 h0; simpa using h0
  | cons y ys ih =>
    intro m0 h0
    rw [List.foldl_cons]
    exact ih (fun c hc => hl c (List.mem_cons_of_mem y hc)) (step m0 y)
      (hstep m0 y h0 (hl y (List.mem_cons_self y ys)))

theorem dictSet_inv {P : Content → Prop} {m : List (Nat × RelEntry)} {k : Nat} {v : RelEntry}
    (hm : ∀ p ∈ m, P p.2.content) (hv : P v.content) :
    ∀ p ∈ dictSet m k v, P p.2.content := by
  intro p hp
  unfold dictSet at hp
  split at hp
  · rcases List.mem_map.mp hp with ⟨q, hq, hqp⟩
    by_cases h : q.1 == k
    · simp only [h, if_pos] at hqp
      rw [← hqp]
      exact hv
    · rw [if_neg (by simp [h])] at hqp
      rw [← hqp]
      exact hm q hq
  · rcases List.mem_append.mp hp with h | h
    · exact hm p h
    · rcases List.mem_singleton.mp h with rfl
      exact hv

theorem dictAdd_inv {P : Content → Prop} {m : List (Nat × RelEntry)} {k d : Nat} {v : RelEntry}
    (hm : ∀ p ∈ m, P p.2.content) (hv : P v.content) :
    ∀ p ∈ dictAdd m k d v, P p.2.content := by
  intro p hp
  unfold dictAdd at hp
  split at hp
  · rcases List.mem_map.mp hp with ⟨q, hq, hqp⟩
    by_cases h : q.1 == k
    · simp only [h, if_pos] at hqp
      rw [← hqp]
      exact hm q hq
    · rw [if_neg (by simp [h])] at hqp
      rw [← hqp]
      exact hm q hq
  · rcases List.mem_append.mp hp with h | h
    · exact hm p h
    · rcases List.mem_singleton.mp h with rfl
      exact hv

theorem relatedMixed_published {analyse : Str → Nat → List Str} {db : List Content}
    {a : Content} {lim : Nat} {c : Content}
    (h : c ∈ relatedMixed analyse db a lim) : c.is_published = true := by
  unfold relatedMixed at h
  simp only at h
  rcases List.mem_map.mp h with ⟨e, he, hec⟩
  have he2 := mem_pySort.mp ((List.take_sublist _ _).mem he)
  rcases List.mem_map.mp he2 with ⟨p, hp, hpe⟩
  have hinv1 := foldl_preserve
    (fun m item => dictSet m item.id (tagEntry item))
    (fun m => ∀ p ∈ m, p.2.content.is_published = true)
    (fun c => c.is_published = true) (relatedByTags db a (lim * 2))
    (fun c hc => relatedByTags_published hc)
    (fun m c hm hc => dictSet_inv (P := fun x => x.is_published = true) hm hc) [] (by simp)
  have hinv2 := foldl_preserve
    (fun m item => dictAdd m item.id 5 (catEntry item))
    (fun m => ∀ p ∈ m, p.2.content.is_published = true)
    (fun c => c.is_published = true) (relatedByCategory db a lim)
    (fun c hc => relatedByCategory_published hc)
    (fun m c hm hc => dictAdd_inv (P := fun x => x.is_published = true) hm hc) _ hinv1
  have hinv3 := foldl_preserve
    (fun m item => dictAdd m item.id 3 (kwEntry item))
    (fun m => ∀ p ∈ m, p.2.content.is_published = true)
    (fun c => c.is_published = true) (relatedByKeywords analyse db a lim)
    (fun c hc => relatedByKeywords_published hc)
    (fun m c hm hc => dictAdd_inv (P := fun x => x.is_published = true) hm hc) _ hinv2
  have := hinv3 p hp
  rw [← hec, ← hpe]
  exact this

theorem getRelatedContent_published {analyse : Str → Nat → List Str} {db : List Content}
    {a : Content} {lim : Nat} {method : Str} {c : Content}
    (h : c ∈ getRelatedContent analyse db a lim method) : c.is_published = true := by
  unfold getRelatedContent at h
  split at h
  · exact relatedByTags_published h
  · split at h
    · exact relatedByCategory_published h
    · split at h
      · exact relatedByKeywords_published h
      · exact relatedMixed_published h

theorem getTrendingContent_published {db : List Content} {now : Int} {days lim : Nat}
    {c : Content} (h : c ∈ getTrendingContent db now days lim) : c.is_published = true := by
  unfold getTrendingContent at h
  have hc := mem_pySort.mp ((List.take_sublist _ _).mem h)
  have h2 := (List.mem_filter.mp hc).2
  simp only [Bool.and_eq_true] at h2
  exact h2.1

/-- A published item used by the concrete witnesses. -/
def cW1 : Content :=
  { id := 1, title := S "flask tutorial", summary := [], content := S "flask body",
    category := S "tech", is_published := true, is_featured := false, view_count := 0,
    like_count := 0, created_at := 0, tags := [{ id := 1, name := S "flask" }] }

/-- An unpublished draft used by the concrete witnesses. -/
def cW2 : Content :=
  { id := 2, title := S "flask draft", summary := [], content := S "flask",
    category := S "tech", is_published := false, is_featured := false, view_count := 0,
    like_count := 0, created_at := 0, tags := [{ id := 1, name := S "flask" }] }

/-- The two-item witness database. -/
def dbW : List Content := [cW1, cW2]

/-- A concrete segmenter standing in for jieba.lcut in the witnesses. -/
def segW : Str → List Str := fun _ => [S "flask"]

/-- A concrete keyword extractor standing in for jieba.analyse.extract_tags in
the witnesses. -/
def analyseW : Str → Nat → List Str := fun _ _ => [S "flask"]

/-- C1: for every content item with isPublished == false, the item never
appears in the output of search (full_text_search), getRelated (any method:
tags, category, keywords, mixed), or getTrending, for any query, category
filter, pagination, limit, or time window: every item returned by any of the
three operations is published. -/
theorem C1_publication_invariant (seg : Str → List Str) (analyse : Str → Nat → List Str)
    (db : List Content) (query : Str) (category : Option Str) (page per_page : Nat)
    (sort_by : Str) (item : Content) (limit : Nat) (method : Str) (now : Int) (days : Nat) :
    (∀ r ∈ (fullTextSearch seg db query category page per_page sort_by).results,
      r.content.is_published = true) ∧
    (∀ c ∈ getRelatedContent analyse db item limit method, c.is_published = true) ∧
    (∀ c ∈ getTrendingContent db now days limit, c.is_published = true) :=
  ⟨fun _ hr => fullTextSearch_published hr,
   fun _ hc => getRelatedContent_published hc,
   fun _ hc => getTrendingContent_published hc⟩

unseal Rat.mul Rat.add Rat.inv Rat.sub in
/-- Witness for C1 at a concrete database, query, recommendation call and
trending call. -/
theorem C1_publication_invariant_witness :
    ({ content := cW1, score := (27 : ℚ) } : SearchItem).content.is_published = true ∧
    cW1.is_published = true ∧ cW1.is_published = true :=
  ⟨(C1_publication_invariant segW analyseW dbW (S "flask") none 1 20 (S "relevance")
      cW2 5 (S "mixed") 0 7).1 { content := cW1, score := (27 : ℚ) } (by decide),
   (C1_publication_invariant segW analyseW dbW (S "flask") none 1 20 (S "relevance")
      cW2 5 (S "mixed") 0 7).2.1 cW1 (by decide),
   (C1_publication_invariant segW analyseW dbW (S "flask") none 1 20 (S "relevance")
      cW2 5 (S "mixed") 0 7).2.2 cW1 (by decide)⟩

/-- C5: for every input where the query string trims to empty, or where
keyword extraction yields zero keywords, search returns an empty result set
(empty results list, total 0) rather than raising an error. -/
theorem C5_empty_query_empty_result (seg : Str → List Str) (db : List Content) (query : Str)
    (category : Option Str) (page per_page : Nat) (sort_by : Str)
    (h : stripStr query = [] ∨ extractKeywords seg query = []) :
    (fullTextSearch seg db query category page per_page sort_by).results = [] ∧
    (fullTextSearch seg db query category page per_page sort_by).total = 0 := by
  unfold fullTextSearch
  rcases h with h | h
  · rw [if_pos h]
    exact ⟨rfl, rfl⟩
  · split
    · exact ⟨rfl, rfl⟩
    · dsimp only
      rw [if_pos h]
      exact ⟨rfl, rfl⟩

/-- Witness for C5 at a whitespace-only query. -/
theorem C5_empty_query_empty_result_witness :
    (fullTextSearch segW dbW (S "   ") none 1 20 (S "relevance")).results = [] ∧
    (fullTextSearch segW dbW (S "   ") none 1 20 (S "relevance")).total = 0 :=
  C5_empty_query_empty_result segW dbW (S "   ") none 1 20 (S "relevance")
    (Or.inl (by decide))

/-- C10: whenever search is invoked with a query that trims to empty or
yields zero keywords, the returned result object reports page == 1 and
per_page == 20 regardless of the page and per_page arguments actually passed
by the caller. -/
theorem C10_empty_result_fixed_pagination (seg : Str → List Str) (db : List Content)
    (query : Str) (category : Option Str) (page per_page : Nat) (sort_by : Str)
    (h : stripStr query = [] ∨ extractKeywords seg query = []) :
    (fullTextSearch seg db query category page per_page sort_by).page = 1 ∧
    (fullTextSearch seg db query category page per_page sort_by).per_page = 20 := by
  unfold fullTextSearch
  rcases h with h | h
  · rw [if_pos h]
    exact ⟨rfl, rfl⟩
  · split
    · exact ⟨rfl, rfl⟩
    · dsimp only
      rw [if_pos h]
      exact ⟨rfl, rfl⟩

/-- A segmenter producing only a stop word, so that keyword extraction comes
back empty on the query used by the C10 witness. -/
def segW10 : Str → List Str := fun _ => [S "的"]

/-- Witness for C10: a stop-word-only query passed with page 7 and per_page 3
still reports page 1 and per_page 20. -/
theorem C10_empty_result_fixed_pagination_witness :
    (fullTextSearch segW10 dbW (S "的") none 7 3 (S "views")).page = 1 ∧
    (fullTextSearch segW10 dbW (S "的") none 7 3 (S "views")).per_page = 20 :=
  C10_empty_result_fixed_pagination segW10 dbW (S "的") none 7 3 (S "views")
    (Or.inr (by decide))

/-! ## C2: the relevance scoring formula -/

/-- The relevance score exactly as the specification words it (section 4.2):
per-field distinct-keyword match counts times field weight times 10, plus one
mutually-exclusive whole-query bonus (title 20, else summary 15, else body
10), plus 5 when featured, plus min(viewCount/100, 10) when viewCount > 100,
rounded to 2 decimal places.  Missing optional fields (empty summary, body or
tag set) are an absent signal contributing zero (section 7). -/
def relevanceSpecScore (c : Content) (keywords : List Str) (q : Str) : ℚ :=
  let titleMatches : ℚ := countKw keywords (lowerStr c.title)
  let summaryMatches : ℚ := if c.summary ≠ [] then countKw keywords (lowerStr c.summary) else 0
  let bodyMatches : ℚ := if c.content ≠ [] then countKw keywords (lowerStr c.content) else 0
  let tagMatches : ℚ :=
    if c.tags ≠ [] then
      ((keywords.filter fun k =>
        (c.tags.map fun t => lowerStr t.name).any fun tn => hasSub k tn).length : ℚ)
    else 0
  let fieldScore : ℚ := titleMatches * (weightTitle * 10) + summaryMatches * (weightSummary * 10)
    + bodyMatches * (weightContent * 10) + tagMatches * (weightTags * 10)
  let queryBonus : ℚ :=
    if hasSub (lowerStr q) (lowerStr c.title) then 20
    else if c.summary ≠ [] ∧ hasSub (lowerStr q) (lowerStr c.summary) then 15
    else if c.content ≠ [] ∧ hasSub (lowerStr q) (lowerStr c.content) then 10
    else 0
  let featuredBonus : ℚ := if c.is_featured then 5 else 0
  let popularityBoost : ℚ :=
    if 100 < c.view_count then min ((c.view_count : ℚ) / 100) 10 else 0
  round2 (fieldScore + queryBonus + featuredBonus + popularityBoost)

/-- C2: for every content item, keyword set, and raw query, the relevance
score computed by _calculate_relevance_score equals the specification's
formula: (distinct-keyword match count per field) x (field weight x 10) with
weights title 0.4, summary 0.3, body 0.2, tags 0.1, plus exactly one verbatim
whole-query bonus in priority order title +20, else summary +15, else body
+10, plus +5 if isFeatured, plus min(viewCount/100, 10) when viewCount > 100,
rounded to 2 decimal places. -/
theorem C2_relevance_formula (c : Content) (keywords : List Str) (q : Str) :
    calcRelevanceScore c keywords q = relevanceSpecScore c keywords q := by
  unfold calcRelevanceScore relevanceSpecScore
  dsimp only
  refine congrArg round2 ?_
  have A : ∀ (b : Prop) (inst : Decidable b) (x y : ℚ),
      (if b then x + y else x) = x + (if b then y else 0) := by
    intro b inst x y
    split_ifs <;> simp
  have B : ∀ (b : Prop) (inst : Decidable b) (x y z : ℚ),
      (if b then x + y else x + z) = x + (if b then y else z) := by
    intro b inst x y z
    split_ifs <;> rfl
  simp only [A, B, ite_mul, zero_mul]
  ring

/-! ## C4: pagination after full scoring and sorting -/

/-- The qualifying-candidate predicate as the specification words it (section
4.3): published, optional category equality, and at least one extracted
keyword substring-matching title OR summary OR body. -/
def qualifies (keywords : List Str) (category : Option Str) (c : Content) : Bool :=
  c.is_published &&
    (match category with
     | some cat => c.category == cat
     | none => true) &&
    (keywords.any fun k => dbContains c.title k || dbContains c.summary k || dbContains c.content k)

theorem searchCandidates_eq_filter (db : List Content) (kw : List Str) (cat : Option Str) :
    searchCandidates db kw cat = db.filter (qualifies kw cat) := by
  unfold searchCandidates qualifies
  cases cat with
  | none =>
    rw [List.filter_filter]
    apply List.filter_congr
    intro c _
    cases c.is_published <;> simp
  | some s =>
    rw [List.filter_filter, List.filter_filter]
    apply List.filter_congr
    intro c _
    cases c.is_published <;> cases hc : c.category == s <;> simp [hc]

theorem ceil_div_eq_pred_div (t p : Nat) (hp : 0 < p) :
    (((t + p - 1) / p : Nat) : ℤ) = Int.ceil ((t : ℚ) / (p : ℚ)) := by
  have hp' : (0 : ℚ) < (p : ℚ) := by exact_mod_cast hp
  set n := (t + p - 1) / p with hn
  have h2 := Nat.div_add_mod (t + p - 1) p
  have h3 := Nat.mod_lt (t + p - 1) hp
  rw [← hn] at h2
  have hA : p * n ≤ t + p - 1 := by omega
  have hB : t ≤ p * n := by omega
  have hcast : ((t + p - 1 : Nat) : ℚ) = (t : ℚ) + (p : ℚ) - 1 := by
    have h6 : (t + p - 1) + 1 = t + p := by omega
    have h7 : ((t + p - 1 : Nat) : ℚ) + 1 = (t : ℚ) + (p : ℚ) := by exact_mod_cast h6
    linarith
  have hAq : (p : ℚ) * (n : ℚ) ≤ (t : ℚ) + (p : ℚ) - 1 := by
    have h4 : ((p * n : Nat) : ℚ) ≤ ((t + p - 1 : Nat) : ℚ) := by exact_mod_cast hA
    rw [hcast] at h4
    push_cast at h4
    exact h4
  have hBq : (t : ℚ) ≤ (p : ℚ) * (n : ℚ) := by exact_mod_cast hB
  rw [eq_comm, Int.ceil_eq_iff, Int.cast_natCast]
  constructor
  · rw [sub_lt_iff_lt_add]
    rw [show (t : ℚ) / (p : ℚ) + 1 = ((t : ℚ) + (p : ℚ)) / (p : ℚ) by field_simp]
    rw [lt_div_iff hp']
    linarith [hAq]
  · rw [div_le_iff hp']
    linarith [hBq]

/-- C4: for every search call with a non-empty keyword-yielding query,
pagination is applied after scoring and sorting the entire qualifying
candidate set: total counts all qualifying candidates, total_pages equals
ceil(total / per_page), page 1 with per_page = N returns the top N entries of
the full ranking under the selected sort order, and under relevance sorting
the returned results are non-increasing in score. -/
theorem C4_pagination (seg : Str → List Str) (db : List Content) (query : Str)
    (category : Option Str) (page per_page : Nat) (sort_by : Str)
    (hq : stripStr query ≠ []) (hk : extractKeywords seg query ≠ []) (hp : 0 < per_page) :
    (fullTextSearch seg db query category page per_page sort_by).total =
      (db.filter (qualifies (extractKeywords seg query) category)).length ∧
    (((fullTextSearch seg db query category page per_page sort_by).total_pages : ℤ) =
      Int.ceil (((fullTextSearch seg db query category page per_page sort_by).total : ℚ) /
        (per_page : ℚ))) ∧
    (fullTextSearch seg db query category 1 per_page sort_by).results =
      ((searchRanking seg db query category sort_by).take per_page).map
        (fun p => { content := p.1, score := p.2 }) ∧
    (sort_by = S "relevance" →
      (fullTextSearch seg db query category page per_page sort_by).results.Pairwise
        fun a b => b.score ≤ a.score) := by
  have htotal : (fullTextSearch seg db query category page per_page sort_by).total =
      (searchRanking seg db query category sort_by).length := by
    unfold fullTextSearch
    rw [if_neg hq]
    dsimp only
    rw [if_neg hk]
  have hrank : (searchRanking seg db query category sort_by).length =
      (db.filter (qualifies (extractKeywords seg query) category)).length := by
    unfold searchRanking
    dsimp only
    rw [← searchCandidates_eq_filter]
    unfold sortScored
    split_ifs <;>
      simp [length_pySort, List.length_map]
  refine ⟨htotal.trans hrank, ?_, ?_, ?_⟩
  · have hpages : (fullTextSearch seg db query category page per_page sort_by).total_pages =
        ((fullTextSearch seg db query category page per_page sort_by).total + per_page - 1) /
          per_page := by
      unfold fullTextSearch
      rw [if_neg hq]
      dsimp only
      rw [if_neg hk]
    rw [hpages]
    exact ceil_div_eq_pred_div _ per_page hp
  · unfold fullTextSearch
    rw [if_neg hq]
    dsimp only
    rw [if_neg hk]
    dsimp only
    norm_num
  · intro hrel
    unfold fullTextSearch
    rw [if_neg hq]
    dsimp only
    rw [if_neg hk]
    dsimp only
    rw [List.pairwise_map]
    have hsorted : (searchRanking seg db query category sort_by).Pairwise
        (fun a b : Content × ℚ => (decide (b.2 ≤ a.2)) = true) := by
      unfold searchRanking sortScored
      rw [if_pos hrel]
      exact pairwise_pySort
        (fun a b c hab hbc => by
          simp only [decide_eq_true_eq] at *
          exact le_trans hbc hab)
        (fun a b => by
          simp only [decide_eq_true_eq]
          exact le_total b.2 a.2) _
    have hsub : ((searchRanking seg db query category sort_by).drop
        ((page - 1) * per_page)).take per_page |>.Sublist
        (searchRanking seg db query category sort_by) :=
      (List.take_sublist _ _).trans (List.drop_sublist _ _)
    have := hsorted.sublist hsub
    refine this.imp ?_
    intro a b h
    simpa using h

unseal Rat.mul Rat.add Rat.inv Rat.sub in
/-- Witness for C4 on a concrete database and query. -/
theorem C4_pagination_witness :
    (fullTextSearch segW dbW (S "flask") none 2 1 (S "relevance")).total =
      (dbW.filter (qualifies (extractKeywords segW (S "flask")) none)).length ∧
    (((fullTextSearch segW dbW (S "flask") none 2 1 (S "relevance")).total_pages : ℤ) =
      Int.ceil (((fullTextSearch segW dbW (S "flask") none 2 1 (S "relevance")).total : ℚ) /
        ((1 : Nat) : ℚ))) ∧
    (fullTextSearch segW dbW (S "flask") none 1 1 (S "relevance")).results =
      ((searchRanking segW dbW (S "flask") none (S "relevance")).take 1).map
        (fun p => { content := p.1, score := p.2 }) ∧
    ((S "relevance") = S "relevance" →
      (fullTextSearch segW dbW (S "flask") none 2 1 (S "relevance")).results.Pairwise
        fun a b => b.score ≤ a.score) :=
  C4_pagination segW dbW (S "flask") none 2 1 (S "relevance") (by decide) (by decide)
    (by decide)

/-! ## C6: the SEO total score is bounded by 100 -/

theorem analyzeTitle_score_le (seg : Str → List Str) (t : Str) :
    (analyzeTitle seg t).score ≤ 20 := by
  unfold analyzeTitle
  dsimp only
  split_ifs <;> simp

theorem analyzeMetaDescription_score_le (m : Str) :
    (analyzeMetaDescription m).score ≤ 15 := by
  unfold analyzeMetaDescription
  dsimp only
  split_ifs <;> simp

theorem analyzeContentStructure_score_le (c : Str) :
    (analyzeContentStructure c).score ≤ 9 := by
  unfold analyzeContentStructure
  dsimp only
  split_ifs <;> simp

theorem analyzeImages_score_le (c : Str) : (analyzeImages c).score ≤ 5 := by
  unfold analyzeImages
  dsimp only
  split_ifs <;> simp

theorem analyzeContentBody_score_le (c : Str) : (analyzeContentBody c).score ≤ 24 := by
  unfold analyzeContentBody
  dsimp only
  have h1 := analyzeContentStructure_score_le c
  have h2 := analyzeImages_score_le c
  split_ifs <;> simp <;> omega

theorem densityVerdict_score_le (kws : List (Str × Nat × ℚ)) :
    (densityVerdict kws).score ≤ 20 := by
  unfold densityVerdict
  dsimp only
  split_ifs <;> simp

theorem analyzeKeywords_score_le (seg : Str → List Str) (c t : Str) :
    (analyzeKeywords seg c t).score ≤ 20 := by
  unfold analyzeKeywords
  dsimp only
  split_ifs <;> simp [densityVerdict_score_le]

theorem analyzeReadability_score_le (c : Str) : (analyzeReadability c).score ≤ 10 := by
  unfold analyzeReadability
  dsimp only
  split_ifs <;> simp

theorem analyzeTechnicalSeo_score_eq (u : Str) : (analyzeTechnicalSeo u).score = 10 := by
  unfold analyzeTechnicalSeo
  dsimp only
  split_ifs <;> rfl

/-- C6: for every combination of body, title, metaDescription, and url
inputs (including all-empty), the total score returned by analyzeContent is
an integer in [0, 100] inclusive (scores are naturals, so the lower bound is
0 ≤ score). -/
theorem C6_seo_score_bounds (seg : Str → List Str) (content title meta_description url : Str) :
    0 ≤ (analyzeContent seg content title meta_description url).score ∧
    (analyzeContent seg content title meta_description url).score ≤ 100 := by
  refine ⟨Nat.zero_le _, ?_⟩
  unfold analyzeContent
  dsimp only
  have h1 := analyzeTitle_score_le seg title
  have h2 := analyzeMetaDescription_score_le meta_description
  have h3 := analyzeContentBody_score_le content
  have h4 := analyzeKeywords_score_le seg content title
  have h5 := analyzeReadability_score_le content
  have h6 := analyzeTechnicalSeo_score_eq url
  omega

/-! ## C7: the keyword-density band -/

/-- The body text used to refute the claimed half-open density band: 199
copies of the two-letter word aa (kept in the word list but too short to be a
keyword) and one three-letter keyword www, so the keyword www has density
1/200 = exactly 0.5 percent. -/
def densityBoundaryBody : Str :=
  List.intercalate (S " ") (List.replicate 199 (S "aa") ++ [S "www"])

set_option maxRecDepth 100000 in
unseal Rat.mul Rat.add Rat.inv Rat.sub in
/-- Counterexample to C7 as stated: on a body whose maximum keyword density
is exactly 0.5 percent - outside the claimed half-open band (0.5, 5] - the
code still awards the 10-point bonus (total 20) and emits no
increase-frequency recommendation. -/
theorem C7_density_band_counterexample :
    maxDensity (analyzeKeywords (fun _ => []) densityBoundaryBody []).keywords = 1 / 2 ∧
    (analyzeKeywords (fun _ => []) densityBoundaryBody []).score = 20 ∧
    (analyzeKeywords (fun _ => []) densityBoundaryBody []).recommendations = [] :=
  ⟨by decide, by decide, by decide⟩

/-- C7 as amended: when extractable keywords exist, 10 points are awarded
unconditionally, and the additional 10-point bonus is awarded if and only if
the maximum keyword density lies in the closed interval [0.5, 5]; above the
band a keyword-stuffing issue is emitted, below it an increase-frequency
recommendation is emitted. -/
theorem densityVerdict_keywords (kws : List (Str × Nat × ℚ)) :
    (densityVerdict kws).keywords = kws := by
  unfold densityVerdict
  dsimp only
  split_ifs <;> rfl

theorem densityVerdict_spec (kws : List (Str × Nat × ℚ)) :
    (densityVerdict kws).score =
      10 + (if 1 / 2 ≤ maxDensity kws ∧ maxDensity kws ≤ 5 then 10 else 0) ∧
    (5 < maxDensity kws →
      Msg.keywordDensityTooHigh (maxDensity kws) ∈ (densityVerdict kws).issues) ∧
    (maxDensity kws < 1 / 2 →
      Msg.increaseKeywordFrequency ∈ (densityVerdict kws).recommendations) := by
  unfold densityVerdict
  dsimp only
  by_cases h3 : 5 < maxDensity kws
  · rw [if_pos h3]
    refine ⟨?_, fun _ => by simp, fun hlt => absurd hlt (by push_neg; linarith)⟩
    have hnc : ¬(1 / 2 ≤ maxDensity kws ∧ maxDensity kws ≤ 5) := by
      rintro ⟨-, hle⟩
      exact absurd h3 (not_lt.mpr hle)
    rw [if_neg hnc]
  · rw [if_neg h3]
    by_cases h4 : maxDensity kws < 1 / 2
    · rw [if_pos h4]
      refine ⟨?_, fun hgt => absurd hgt h3, fun _ => by simp⟩
      have hnc : ¬(1 / 2 ≤ maxDensity kws ∧ maxDensity kws ≤ 5) := by
        rintro ⟨hge, -⟩
        exact absurd h4 (not_lt.mpr hge)
      rw [if_neg hnc]
    · rw [if_neg h4]
      exact ⟨by rw [if_pos ⟨not_lt.mp h4, not_lt.mp h3⟩], fun hgt => absurd hgt h3,
        fun hlt => absurd hlt h4⟩

/-- C7 as amended: when extractable keywords exist, 10 points are awarded
unconditionally, and the additional 10-point bonus is awarded if and only if
the maximum keyword density lies in the closed interval [0.5, 5]; above the
band a keyword-stuffing issue is emitted, below it an increase-frequency
recommendation is emitted. -/
theorem C7_density_band_amended (seg : Str → List Str) (content title : Str)
    (h : (analyzeKeywords seg content title).keywords ≠ []) :
    (analyzeKeywords seg content title).score =
      10 + (if 1 / 2 ≤ maxDensity (analyzeKeywords seg content title).keywords ∧
        maxDensity (analyzeKeywords seg content title).keywords ≤ 5 then 10 else 0) ∧
    (5 < maxDensity (analyzeKeywords seg content title).keywords →
      Msg.keywordDensityTooHigh (maxDensity (analyzeKeywords seg content title).keywords) ∈
        (analyzeKeywords seg content title).issues) ∧
    (maxDensity (analyzeKeywords seg content title).keywords < 1 / 2 →
      Msg.increaseKeywordFrequency ∈ (analyzeKeywords seg content title).recommendations) := by
  unfold analyzeKeywords at h ⊢
  dsimp only at h ⊢
  split at h
  · simp at h
  · rename_i h1
    rw [if_neg h1]
    split at h
    · rename_i h2
      rw [if_pos h2, densityVerdict_keywords]
      exact densityVerdict_spec _
    · simp at h

unseal Rat.mul Rat.add Rat.inv Rat.sub in
/-- Witness for the amended C7 on a body whose top keyword density is far
above the band. -/
theorem C7_density_band_amended_witness :
    (analyzeKeywords (fun _ => []) (S "hello hello world") []).score =
      10 + (if 1 / 2 ≤ maxDensity (analyzeKeywords (fun _ => [])
          (S "hello hello world") []).keywords ∧
        maxDensity (analyzeKeywords (fun _ => []) (S "hello hello world") []).keywords ≤ 5
        then 10 else 0) ∧
    (5 < maxDensity (analyzeKeywords (fun _ => []) (S "hello hello world") []).keywords →
      Msg.keywordDensityTooHigh (maxDensity (analyzeKeywords (fun _ => [])
          (S "hello hello world") []).keywords) ∈
        (analyzeKeywords (fun _ => []) (S "hello hello world") []).issues) ∧
    (maxDensity (analyzeKeywords (fun _ => []) (S "hello hello world") []).keywords < 1 / 2 →
      Msg.increaseKeywordFrequency ∈
        (analyzeKeywords (fun _ => []) (S "hello hello world") []).recommendations) :=
  C7_density_band_amended (fun _ => []) (S "hello hello world") [] (by decide)

/-! ## C8: the technical/URL sub-score -/

/-- Counterexample to C8 as stated: a call with no URL still receives the 10
baseline technical points, not 0. -/
theorem C8_technical_counterexample :
    (analyzeTechnicalSeo []).score = 10 ∧ (analyzeTechnicalSeo []).score ≠ 0 :=
  ⟨by decide, by decide⟩

/-- C8 as amended: the technical/URL sub-score awards its baseline 10 points
unconditionally - also when no URL is supplied - and a URL longer than 100
characters raises an issue without any point deduction. -/
theorem C8_technical_amended (url : Str) :
    (analyzeTechnicalSeo url).score = 10 ∧
    (Msg.urlTooLong ∈ (analyzeTechnicalSeo url).issues ↔ url ≠ [] ∧ 100 < url.length) := by
  refine ⟨analyzeTechnicalSeo_score_eq url, ?_⟩
  unfold analyzeTechnicalSeo
  dsimp only
  split_ifs with h1 h2 h3 <;> simp_all

/-! ## C3: mixed-mode additive blending -/

/-- Bool test that some item of l carries the id k. -/
def hasId (l : List Content) (k : Nat) : Bool := l.any fun c => c.id == k

/-- Keeps the first item for every id, in first-occurrence order (the key set
and stored objects of a dict keyed by item id, when no list repeats an
id). -/
def dedupById (l : List Content) : List Content :=
  l.foldl (fun acc c => if hasId acc c.id then acc else acc ++ [c]) []

/-- The additive mixed-mode weight of the specification (section 4.4): 10 for
a tag-mode candidate, plus 5 for a category-mode candidate, plus 3 for a
keyword-mode candidate, summed per candidate item id. -/
def mixedWeight (T C K : List Content) (c : Content) : Nat :=
  (if hasId T c.id then 10 else 0) + (if hasId C c.id then 5 else 0) +
    (if hasId K c.id then 3 else 0)

/-- The reason label an item ends up with in the mixed-mode dict: the first
signal list that inserted it. -/
def mixedReason (T C : List Content) (c : Content) : Str :=
  if hasId T c.id then S "tags" else if hasId C c.id then S "category" else S "keywords"

/-- The dict value an item ends up with in the mixed-mode dict. -/
def mixedEntry (T C K : List Content) (c : Content) : RelEntry :=
  { content := c, score := mixedWeight T C K c, reason := mixedReason T C c }

/-- Mixed-mode recommendation as the specification words it: merge the three
candidate lists into one map keyed by item id summing the per-signal weights,
and return the top limit candidates by total weight descending (stably). -/
def mixedSpec (analyse : Str → Nat → List Str) (db : List Content) (content : Content)
    (limit : Nat) : List Content :=
  let T := relatedByTags db content (limit * 2)
  let C := relatedByCategory db content limit
  let K := relatedByKeywords analyse db content limit
  let candidates := dedupById (T ++ C ++ K)
  (pySort (fun a b => decide (mixedWeight T C K b ≤ mixedWeight T C K a)) candidates).take
    limit

/-- Bumps by d the score of every entry whose key is an id of ids. -/
def bumpScores (d : Nat) (ids : List Content) (m : List (Nat × RelEntry)) :
    List (Nat × RelEntry) :=
  m.map fun p => if hasId ids p.1 then (p.1, { p.2 with score := p.2.score + d }) else p

theorem hasId_of_mem {l : List Content} {c : Content} (h : c ∈ l) : hasId l c.id = true := by
  unfold hasId
  rw [List.any_eq_true]
  exact ⟨c, h, by simp⟩

theorem hasId_eq_false {l : List Content} {k : Nat} :
    hasId l k = false ↔ ∀ c ∈ l, c.id ≠ k := by
  unfold hasId
  rw [← Bool.not_eq_true, List.any_eq_true]
  simp

theorem hasId_append (l1 l2 : List Content) (k : Nat) :
    hasId (l1 ++ l2) k = (hasId l1 k || hasId l2 k) := by
  unfold hasId
  rw [List.any_append]

theorem keyMem_append (m1 m2 : List (Nat × RelEntry)) (k : Nat) :
    keyMem (m1 ++ m2) k = (keyMem m1 k || keyMem m2 k) := by
  unfold keyMem
  rw [List.any_append]

theorem keyMem_map_entries (L : List Content) (e : Content → RelEntry) (k : Nat) :
    keyMem (L.map fun c => (c.id, e c)) k = hasId L k := by
  unfold keyMem hasId
  induction L with
  | nil => rfl
  | cons c L ih =>
    simp only [List.map_cons, List.any_cons]
    rw [ih]

theorem keyMem_map_of_fst_eq (m : List (Nat × RelEntry)) (f : Nat × RelEntry → Nat × RelEntry)
    (hf : ∀ p, (f p).1 = p.1) (k : Nat) : keyMem (m.map f) k = keyMem m k := by
  unfold keyMem
  induction m with
  | nil => rfl
  | cons p m ih =>
    simp only [List.map_cons, List.any_cons]
    rw [ih, hf p]

theorem keyMem_bumpScores (d : Nat) (ids : List Content) (m : List (Nat × RelEntry)) (k : Nat) :
    keyMem (bumpScores d ids m) k = keyMem m k := by
  apply keyMem_map_of_fst_eq
  intro p
  dsimp only
  split <;> rfl

theorem bumpScores_nil (d : Nat) (m : List (Nat × RelEntry)) : bumpScores d [] m = m := by
  unfold bumpScores
  have h : ∀ p ∈ m, (if hasId [] p.1 then (p.1, { p.2 with score := p.2.score + d }) else p)
      = p := by
    intro p _
    rw [if_neg]
    simp [hasId]
  rw [List.map_congr_left h]
  simp

theorem bumpScores_append (d : Nat) (ids : List Content) (m1 m2 : List (Nat × RelEntry)) :
    bumpScores d ids (m1 ++ m2) = bumpScores d ids m1 ++ bumpScores d ids m2 := by
  unfold bumpScores
  rw [List.map_append]

theorem dictSet_of_not_mem {m : List (Nat × RelEntry)} {k : Nat} {v : RelEntry}
    (h : keyMem m k = false) : dictSet m k v = m ++ [(k, v)] := by
  unfold dictSet
  rw [if_neg (by simp [h])]

theorem dictAdd_of_mem {m : List (Nat × RelEntry)} {k d : Nat} {v : RelEntry}
    (h : keyMem m k = true) :
    dictAdd m k d v = m.map fun p =>
      if p.1 == k then (p.1, { p.2 with score := p.2.score + d }) else p := by
  unfold dictAdd
  rw [if_pos h]

theorem dictAdd_of_not_mem {m : List (Nat × RelEntry)} {k d : Nat} {v : RelEntry}
    (h : keyMem m k = false) : dictAdd m k d v = m ++ [(k, v)] := by
  unfold dictAdd
  rw [if_neg (by simp [h])]

theorem foldl_dictAdd (d : Nat) (e : Content → RelEntry) :
    ∀ (L : List Content), (L.map Content.id).Nodup →
      ∀ m, L.foldl (fun m item => dictAdd m item.id d (e item)) m =
        bumpScores d L m ++ (L.filter fun c => !(keyMem m c.id)).map fun c => (c.id, e c) := by
  intro L
  induction L with
  | nil =>
    intro _ m
    simp [bumpScores_nil]
  | cons c L ih =>
    intro hnd m
    rw [List.map_cons, List.nodup_cons] at hnd
    rcases hnd with ⟨hcid, hnd⟩
    have hcL : hasId L c.id = false := by
      rw [hasId_eq_false]
      intro x hx hxe
      exact hcid (hxe ▸ List.mem_map_of_mem Content.id hx)
    rw [List.foldl_cons, ih hnd]
    by_cases hk : keyMem m c.id = true
    · rw [dictAdd_of_mem hk]
      have hbump : bumpScores d L (m.map fun p =>
          if p.1 == c.id then (p.1, { p.2 with score := p.2.score + d }) else p) =
          bumpScores d (c :: L) m := by
        unfold bumpScores
        rw [List.map_map]
        apply List.map_congr_left
        intro p _
        by_cases hpc : p.1 = c.id
        · have h1 : (p.1 == c.id) = true := by simp [hpc]
          have h2 : hasId L p.1 = false := by rw [hpc]; exact hcL
          have h3 : hasId (c :: L) p.1 = true := by
            unfold hasId
            rw [List.any_cons]
            simp [hpc]
          simp only [Function.comp_apply, h1, if_pos, h3, if_true, h2, Bool.false_eq_true,
            if_false]
        · have h1 : (p.1 == c.id) = false := by simp [hpc]
          have h3 : hasId (c :: L) p.1 = hasId L p.1 := by
            unfold hasId
            rw [List.any_cons]
            have : (c.id == p.1) = false := by simp [Ne.symm hpc]
            rw [this, Bool.false_or]
          simp only [Function.comp_apply, h1, Bool.false_eq_true, if_false, h3]
      have hfilter : (L.filter fun x => !(keyMem (m.map fun p =>
          if p.1 == c.id then (p.1, { p.2 with score := p.2.score + d }) else p) x.id)) =
          L.filter fun x => !(keyMem m x.id) := by
        apply List.filter_congr
        intro x _
        rw [keyMem_map_of_fst_eq]
        intro p
        dsimp only
        split <;> rfl
      rw [hbump, hfilter]
      have hcfil : ((c :: L).filter fun x => !(keyMem m x.id)) =
          L.filter fun x => !(keyMem m x.id) := by
        rw [List.filter_cons]
        simp [hk]
      rw [hcfil]
    · rw [Bool.not_eq_true] at hk
      rw [dictAdd_of_not_mem hk]
      have hsplit : bumpScores d L (m ++ [(c.id, e c)]) =
          bumpScores d L m ++ [(c.id, e c)] := by
        rw [bumpScores_append]
        congr 1
        unfold bumpScores
        simp only [List.map_cons, List.map_nil]
        rw [if_neg (by simp [hcL])]
      have hbump2 : bumpScores d L m = bumpScores d (c :: L) m := by
        unfold bumpScores
        apply List.map_congr_left
        intro p hp
        have hpc : (c.id == p.1) = false := by
          by_contra hcontra
          rw [Bool.not_eq_false, beq_iff_eq] at hcontra
          have hmem : keyMem m c.id = true := by
            unfold keyMem
            rw [List.any_eq_true]
            exact ⟨p, hp, by simp [hcontra]⟩
          rw [hmem] at hk
          exact Bool.true_eq_false.mp hk
        have h3 : hasId (c :: L) p.1 = hasId L p.1 := by
          unfold hasId
          rw [List.any_cons, hpc, Bool.false_or]
        rw [h3]
      have hfilter2 : (L.filter fun x => !(keyMem (m ++ [(c.id, e c)]) x.id)) =
          L.filter fun x => !(keyMem m x.id) := by
        apply List.filter_congr
        intro x hx
        rw [keyMem_append]
        have hx2 : keyMem [(c.id, e c)] x.id = false := by
          unfold keyMem
          simp only [List.any_cons, List.any_nil, Bool.or_false]
          have := (hasId_eq_false.mp hcL) x hx
          simp [Ne.symm this]
        rw [hx2, Bool.or_false]
      have hcfil2 : ((c :: L).filter fun x => !(keyMem m x.id)) =
          c :: L.filter fun x => !(keyMem m x.id) := by
        rw [List.filter_cons]
        simp [hk]
      rw [hsplit, hbump2, hfilter2, hcfil2]
      simp

theorem foldl_dictSet (e : Content → RelEntry) :
    ∀ (L : List Content), (L.map Content.id).Nodup →
      ∀ m, (∀ c ∈ L, keyMem m c.id = false) →
        L.foldl (fun m item => dictSet m item.id (e item)) m =
          m ++ L.map fun c => (c.id, e c) := by
  intro L
  induction L with
  | nil =>
    intro _ m _
    simp
  | cons c L ih =>
    intro hnd m hdis
    rw [List.map_cons, List.nodup_cons] at hnd
    rcases hnd with ⟨hcid, hnd⟩
    rw [List.foldl_cons, dictSet_of_not_mem (hdis c (List.mem_cons_self c L))]
    rw [ih hnd (m ++ [(c.id, e c)]) ?hdis2]
    · simp
    case hdis2 =>
      intro x hx
      rw [keyMem_append]
      have h1 : keyMem m x.id = false := hdis x (List.mem_cons_of_mem c hx)
      have h2 : keyMem [(c.id, e c)] x.id = false := by
        unfold keyMem
        simp only [List.any_cons, List.any_nil, Bool.or_false]
        have hxc : x.id ≠ c.id := by
          intro hxe
          exact hcid (hxe ▸ List.mem_map_of_mem Content.id hx)
        simp [Ne.symm hxc]
      rw [h1, h2]
      rfl

theorem dedupById_foldl :
    ∀ (L : List Content), (L.map Content.id).Nodup →
      ∀ acc, L.foldl (fun acc c => if hasId acc c.id then acc else acc ++ [c]) acc =
        acc ++ L.filter fun c => !(hasId acc c.id) := by
  intro L
  induction L with
  | nil =>
    intro _ acc
    simp
  | cons c L ih =>
    intro hnd acc
    rw [List.map_cons, List.nodup_cons] at hnd
    rcases hnd with ⟨hcid, hnd⟩
    have hcL : ∀ x ∈ L, x.id ≠ c.id := by
      intro x hx hxe
      exact hcid (hxe ▸ List.mem_map_of_mem Content.id hx)
    rw [List.foldl_cons]
    by_cases hc : hasId acc c.id = true
    · rw [if_pos hc, ih hnd acc, List.filter_cons]
      simp [hc]
    · rw [Bool.not_eq_true] at hc
      rw [if_neg (by simp [hc]), ih hnd (acc ++ [c]), List.filter_cons]
      have hfc : (L.filter fun x => !(hasId (acc ++ [c]) x.id)) =
          L.filter fun x => !(hasId acc x.id) := by
        apply List.filter_congr
        intro x hx
        rw [hasId_append]
        have hone : hasId [c] x.id = false := by
          unfold hasId
          simp only [List.any_cons, List.any_nil, Bool.or_false]
          simp [Ne.symm (hcL x hx)]
        rw [hone, Bool.or_false]
      rw [hfc]
      simp [hc]

theorem idsNodup_take_pySort_filter (le : Content → Content → Bool) (p : Content → Bool)
    (db : List Content) (h : (db.map Content.id).Nodup) (n : Nat) :
    (((pySort le (db.filter p)).take n).map Content.id).Nodup := by
  have h1 : ((db.filter p).map Content.id).Sublist (db.map Content.id) :=
    (List.filter_sublist db).map Content.id
  have h2 : ((db.filter p).map Content.id).Nodup := h.sublist h1
  have h3 : ((pySort le (db.filter p)).map Content.id).Nodup :=
    (((pySort_perm le (db.filter p)).map Content.id).nodup_iff).mpr h2
  exact h3.sublist ((List.take_sublist n _).map Content.id)

theorem idsNodup_relatedByTags (db : List Content) (a : Content) (lim : Nat)
    (h : (db.map Content.id).Nodup) :
    ((relatedByTags db a lim).map Content.id).Nodup := by
  unfold relatedByTags
  split
  · simp
  · exact idsNodup_take_pySort_filter _ _ db h lim

theorem idsNodup_relatedByCategory (db : List Content) (a : Content) (lim : Nat)
    (h : (db.map Content.id).Nodup) :
    ((relatedByCategory db a lim).map Content.id).Nodup := by
  unfold relatedByCategory
  exact idsNodup_take_pySort_filter _ _ db h lim

theorem idsNodup_relatedByKeywords (analyse : Str → Nat → List Str) (db : List Content)
    (a : Content) (lim : Nat) (h : (db.map Content.id).Nodup) :
    ((relatedByKeywords analyse db a lim).map Content.id).Nodup := by
  unfold relatedByKeywords
  split
  · simp
  · dsimp only
    split
    · simp
    · exact idsNodup_take_pySort_filter _ _ db h lim

theorem hasId_filter_not_hasId (T C : List Content) (k : Nat) (hT : hasId T k = false) :
    hasId (C.filter fun c => !(hasId T c.id)) k = hasId C k := by
  unfold hasId at *
  rcases hC : C.any (fun c => c.id == k) with _ | _
  · rw [← Bool.not_eq_true, List.any_eq_true] at hC ⊢
    intro ⟨x, hx, hxk⟩
    exact hC ⟨x, (List.mem_filter.mp hx).1, hxk⟩
  · rw [List.any_eq_true] at hC ⊢
    rcases hC with ⟨x, hx, hxk⟩
    refine ⟨x, List.mem_filter.mpr ⟨hx, ?_⟩, hxk⟩
    rw [beq_iff_eq] at hxk
    rw [Bool.not_eq_true']
    rw [hxk]
    exact hT

theorem dedupById_three (T C K : List Content) (hT : (T.map Content.id).Nodup)
    (hC : (C.map Content.id).Nodup) (hK : (K.map Content.id).Nodup) :
    dedupById (T ++ C ++ K) =
      T ++ (C.filter fun c => !(hasId T c.id)) ++
        (K.filter fun c => !(hasId T c.id || hasId C c.id)) := by
  unfold dedupById
  rw [List.foldl_append, List.foldl_append]
  rw [dedupById_foldl T hT []]
  have hTfil : ([] ++ T.filter fun c => !(hasId [] c.id)) = T := by
    simp [hasId]
  rw [hTfil]
  rw [dedupById_foldl C hC T]
  rw [dedupById_foldl K hK _]
  congr 1
  apply List.filter_congr
  intro x _
  rw [hasId_append]
  by_cases hxT : hasId T x.id = true
  · simp [hxT]
  · rw [Bool.not_eq_true] at hxT
    rw [hasId_filter_not_hasId T C x.id hxT, hxT]

theorem map_snd_entries (L : List Content) (e : Content → RelEntry) :
    ((L.map fun c => (c.id, e c)).map Prod.snd) = L.map e := by
  rw [List.map_map]
  rfl

theorem map_snd_bumpScores (d : Nat) (ids : List Content) (m : List (Nat × RelEntry)) :
    ((bumpScores d ids m).map Prod.snd) =
      m.map fun p => if hasId ids p.1 then { p.2 with score := p.2.score + d } else p.2 := by
  unfold bumpScores
  rw [List.map_map]
  apply List.map_congr_left
  intro p _
  by_cases h : hasId ids p.1 = true
  · simp [h]
  · rw [Bool.not_eq_true] at h
    simp [h]

theorem hasId_or_filter (T C : List Content) (k : Nat) :
    (hasId T k || hasId (C.filter fun c => !(hasId T c.id)) k) = (hasId T k || hasId C k) := by
  by_cases h : hasId T k = true
  · simp [h]
  · rw [Bool.not_eq_true] at h
    rw [h, Bool.false_or, Bool.false_or, hasId_filter_not_hasId T C k h]

theorem mixed_fold_snd (T C K : List Content) (hT : (T.map Content.id).Nodup)
    (hC : (C.map Content.id).Nodup) (hK : (K.map Content.id).Nodup) :
    ((K.foldl (fun m item => dictAdd m item.id 3 (kwEntry item))
      (C.foldl (fun m item => dictAdd m item.id 5 (catEntry item))
        (T.foldl (fun m item => dictSet m item.id (tagEntry item)) []))).map Prod.snd) =
      (dedupById (T ++ C ++ K)).map (mixedEntry T C K) := by
  rw [foldl_dictSet tagEntry T hT [] (fun c _ => rfl), List.nil_append]
  rw [foldl_dictAdd 5 catEntry C hC]
  rw [foldl_dictAdd 3 kwEntry K hK]
  rw [dedupById_three T C K hT hC hK]
  simp only [keyMem_append, keyMem_bumpScores, keyMem_map_entries, hasId_or_filter]
  rw [bumpScores_append]
  simp only [List.map_append]
  congr 1
  congr 1
  · -- tag segment
    unfold bumpScores
    rw [List.map_map, List.map_map, List.map_map]
    apply List.map_congr_left
    intro c hc
    have hTc := hasId_of_mem hc
    cases hCc : hasId C c.id <;> cases hKc : hasId K c.id <;>
      simp [Function.comp, tagEntry, mixedEntry, mixedWeight, mixedReason, hTc, hCc, hKc]
  · -- category segment
    unfold bumpScores
    rw [List.map_map, List.map_map]
    apply List.map_congr_left
    intro c hc
    have hcC : c ∈ C := (List.mem_filter.mp hc).1
    have hTc : hasId T c.id = false := by
      have := (List.mem_filter.mp hc).2
      rwa [Bool.not_eq_true'] at this
    have hCc : hasId C c.id = true := hasId_of_mem hcC
    cases hKc : hasId K c.id <;>
      simp [Function.comp, catEntry, mixedEntry, mixedWeight, mixedReason, hTc, hCc, hKc]
  · -- keyword segment
    rw [List.map_map]
    apply List.map_congr_left
    intro c hc
    have hcK : c ∈ K := (List.mem_filter.mp hc).1
    have hTC : (hasId T c.id || hasId C c.id) = false := by
      have := (List.mem_filter.mp hc).2
      rwa [Bool.not_eq_true'] at this
    rw [Bool.or_eq_false_iff] at hTC
    have hKc : hasId K c.id = true := hasId_of_mem hcK
    simp [Function.comp, kwEntry, mixedEntry, mixedWeight, mixedReason, hTC.1, hTC.2, hKc]

/-- The mixed-mode implementation equals the specification's additive
blending, provided the database does not repeat item ids (the id column is
the primary key). -/
theorem relatedMixed_eq_mixedSpec (analyse : Str → Nat → List Str) (db : List Content)
    (content : Content) (limit : Nat) (h : (db.map Content.id).Nodup) :
    relatedMixed analyse db content limit = mixedSpec analyse db content limit := by
  have hT := idsNodup_relatedByTags db content (limit * 2) h
  have hC := idsNodup_relatedByCategory db content limit h
  have hK := idsNodup_relatedByKeywords analyse db content limit h
  unfold relatedMixed mixedSpec
  dsimp only
  rw [mixed_fold_snd _ _ _ hT hC hK]
  rw [pySort_map (mixedEntry (relatedByTags db content (limit * 2))
    (relatedByCategory db content limit) (relatedByKeywords analyse db content limit))
    (fun a b => decide (b.score ≤ a.score))]
  rw [← List.map_take, List.map_map]
  have hid : ((fun e : RelEntry => e.content) ∘ mixedEntry (relatedByTags db content (limit * 2))
      (relatedByCategory db content limit) (relatedByKeywords analyse db content limit)) =
      fun c => c := rfl
  rw [hid, List.map_id']
  rfl

theorem indexOf_lt_of_weight_lt {l : List Content} {W : Content → Nat}
    (hl : l.Pairwise fun a b => W b ≤ W a) {x y : Content}
    (hx : x ∈ l) (hy : y ∈ l) (hW : W y < W x) :
    l.indexOf x < l.indexOf y := by
  by_contra hle
  push_neg at hle
  have hxlt := List.indexOf_lt_length.mpr hx
  have hylt := List.indexOf_lt_length.mpr hy
  rcases lt_or_eq_of_le hle with hlt | heq
  · have hpair := (List.pairwise_iff_getElem.mp hl) _ _ hylt hxlt hlt
    rw [List.getElem_indexOf hxlt, List.getElem_indexOf hylt] at hpair
    omega
  · have hxy : x = y := by
      have h1 := List.getElem_indexOf hxlt
      have h2 := List.getElem_indexOf hylt
      rw [← h1, ← h2]
      congr 1
      exact heq.symm
    rw [hxy] at hW
    omega

theorem mixedSpec_pairwise (analyse : Str → Nat → List Str) (db : List Content)
    (content : Content) (limit : Nat) :
    (mixedSpec analyse db content limit).Pairwise fun a b =>
      mixedWeight (relatedByTags db content (limit * 2)) (relatedByCategory db content limit)
        (relatedByKeywords analyse db content limit) b ≤
      mixedWeight (relatedByTags db content (limit * 2)) (relatedByCategory db content limit)
        (relatedByKeywords analyse db content limit) a := by
  unfold mixedSpec
  dsimp only
  have hp := @pairwise_pySort _
    (fun a b => decide
      (mixedWeight (relatedByTags db content (limit * 2)) (relatedByCategory db content limit)
          (relatedByKeywords analyse db content limit) b ≤
        mixedWeight (relatedByTags db content (limit * 2)) (relatedByCategory db content limit)
          (relatedByKeywords analyse db content limit) a))
    (fun a b c hab hbc => by
      simp only [decide_eq_true_eq] at *
      omega)
    (fun a b => by
      simp only [decide_eq_true_eq]
      omega)
    (dedupById (relatedByTags db content (limit * 2) ++ relatedByCategory db content limit ++
      relatedByKeywords analyse db content limit))
  have hsub := hp.sublist (List.take_sublist limit _)
  exact hsub.imp fun hab => by simpa using hab

/-- C3: in mixed-mode related-content recommendation, per-signal weights
combine additively (tags 10, category +5, keywords +3, summed per candidate
item id) and the returned list is the top limit candidates by total weight
descending: the implementation equals the specification-side mixedSpec, and
in the returned list any candidate of strictly greater total weight comes
first; in particular a tag+category candidate (weight 15) ranks above a
tag-only candidate (weight 10), and tag-only B, category-only C, keyword-only
D are ranked B before C before D.  The database is assumed not to repeat item
ids (id is the primary key). -/
theorem C3_mixed_additive_blending (analyse : Str → Nat → List Str) (db : List Content)
    (content : Content) (limit : Nat) (h : (db.map Content.id).Nodup) :
    relatedMixed analyse db content limit = mixedSpec analyse db content limit ∧
    (∀ x y, x ∈ relatedMixed analyse db content limit →
      y ∈ relatedMixed analyse db content limit →
      mixedWeight (relatedByTags db content (limit * 2)) (relatedByCategory db content limit)
          (relatedByKeywords analyse db content limit) y <
        mixedWeight (relatedByTags db content (limit * 2)) (relatedByCategory db content limit)
          (relatedByKeywords analyse db content limit) x →
      (relatedMixed analyse db content limit).indexOf x <
        (relatedMixed analyse db content limit).indexOf y) ∧
    (∀ b c d, b ∈ relatedMixed analyse db content limit →
      c ∈ relatedMixed analyse db content limit →
      d ∈ relatedMixed analyse db content limit →
      hasId (relatedByTags db content (limit * 2)) b.id = true →
      hasId (relatedByCategory db content limit) b.id = false →
      hasId (relatedByKeywords analyse db content limit) b.id = false →
      hasId (relatedByTags db content (limit * 2)) c.id = false →
      hasId (relatedByCategory db content limit) c.id = true →
      hasId (relatedByKeywords analyse db content limit) c.id = false →
      hasId (relatedByTags db content (limit * 2)) d.id = false →
      hasId (relatedByCategory db content limit) d.id = false →
      hasId (relatedByKeywords analyse db content limit) d.id = true →
      (relatedMixed analyse db content limit).indexOf b <
        (relatedMixed analyse db content limit).indexOf c ∧
      (relatedMixed analyse db content limit).indexOf c <
        (relatedMixed analyse db content limit).indexOf d) ∧
    (∀ e b, e ∈ relatedMixed analyse db content limit →
      b ∈ relatedMixed analyse db content limit →
      hasId (relatedByTags db content (limit * 2)) e.id = true →
      hasId (relatedByCategory db content limit) e.id = true →
      hasId (relatedByKeywords analyse db content limit) e.id = false →
      hasId (relatedByTags db content (limit * 2)) b.id = true →
      hasId (relatedByCategory db content limit) b.id = false →
      hasId (relatedByKeywords analyse db content limit) b.id = false →
      (relatedMixed analyse db content limit).indexOf e <
        (relatedMixed analyse db content limit).indexOf b) := by
  have heq := relatedMixed_eq_mixedSpec analyse db content limit h
  have hpw := mixedSpec_pairwise analyse db content limit
  rw [← heq] at hpw
  refine ⟨heq, ?_, ?_, ?_⟩
  · intro x y hx hy hW
    exact indexOf_lt_of_weight_lt hpw hx hy hW
  · intro b c d hb hc hd hbT hbC hbK hcT hcC hcK hdT hdC hdK
    constructor
    · refine indexOf_lt_of_weight_lt hpw hb hc ?_
      simp [mixedWeight, hbT, hbC, hbK, hcT, hcC, hcK]
    · refine indexOf_lt_of_weight_lt hpw hc hd ?_
      simp [mixedWeight, hcT, hcC, hcK, hdT, hdC, hdK]
  · intro e b he hb heT heC heK hbT hbC hbK
    refine indexOf_lt_of_weight_lt hpw he hb ?_
    simp [mixedWeight, heT, heC, heK, hbT, hbC, hbK]

/-- Source item for the C3 witness. -/
def cwA : Content :=
  { id := 10, title := S "a", summary := [], content := S "x", category := S "tech",
    is_published := true, is_featured := false, view_count := 0, like_count := 0,
    created_at := 0, tags := [{ id := 1, name := S "t1" }] }

/-- Tag-only related candidate for the C3 witness. -/
def cwB : Content :=
  { id := 11, title := S "b", summary := [], content := S "b", category := S "life",
    is_published := true, is_featured := false, view_count := 0, like_count := 0,
    created_at := 0, tags := [{ id := 1, name := S "t1" }] }

/-- Category-only related candidate for the C3 witness. -/
def cwC : Content :=
  { id := 12, title := S "c", summary := [], content := S "c", category := S "tech",
    is_published := true, is_featured := false, view_count := 0, like_count := 0,
    created_at := 0, tags := [] }

/-- Keyword-only related candidate for the C3 witness. -/
def cwD : Content :=
  { id := 13, title := S "qq", summary := [], content := S "qq", category := S "life",
    is_published := true, is_featured := false, view_count := 0, like_count := 0,
    created_at := 0, tags := [] }

/-- Database for the C3 witness. -/
def dbW3 : List Content := [cwA, cwB, cwC, cwD]

/-- Keyword extractor for the C3 witness: always the keyword qq, which only
cwD carries. -/
def analyseW3 : Str → Nat → List Str := fun _ _ => [S "qq"]

/-- Witness for C3: in the concrete mixed recommendation for cwA, the
tag-only candidate cwB ranks before the category-only candidate cwC, which
ranks before the keyword-only candidate cwD. -/
theorem C3_mixed_additive_blending_witness :
    (relatedMixed analyseW3 dbW3 cwA 5).indexOf cwB <
      (relatedMixed analyseW3 dbW3 cwA 5).indexOf cwC ∧
    (relatedMixed analyseW3 dbW3 cwA 5).indexOf cwC <
      (relatedMixed analyseW3 dbW3 cwA 5).indexOf cwD :=
  (C3_mixed_additive_blending analyseW3 dbW3 cwA 5 (by decide)).2.2.1 cwB cwC cwD
    (by decide) (by decide) (by decide) (by decide) (by decide) (by decide) (by decide)
    (by decide) (by decide) (by decide) (by decide) (by decide)

/-! ## C9: slug generation invariants

The external collaborators are constrained only as the libraries behave on
the lowercased text this pipeline feeds them: pypinyin emits lowercase pinyin
words, and NFKD normalisation plus combining-character removal does not
introduce ASCII uppercase into a string that has none. -/

/-- No ASCII-uppercase character occurs in s. -/
def noUpper (s : Str) : Prop := ∀ c ∈ s, isUpperA c = false

/-- Bool version of noUpper, for finite tables checked by decide. -/
def noUpperB (s : Str) : Bool := s.all fun c => !(isUpperA c)

theorem noUpperB_iff {s : Str} : noUpperB s = true ↔ noUpper s := by
  unfold noUpperB noUpper
  rw [List.all_eq_true]
  constructor
  · intro h c hc
    have := h c hc
    rwa [Bool.not_eq_true'] at this
  · intro h c hc
    rw [Bool.not_eq_true']
    exact h c hc

theorem noUpper_subset {s t : Str} (hsub : ∀ c ∈ t, c ∈ s) (h : noUpper s) : noUpper t :=
  fun c hc => h c (hsub c hc)

theorem isUpperA_lowerChar (c : Char) : isUpperA (lowerChar c) = false := by
  unfold lowerChar
  cases hf : (asciiUppers.zip asciiLowers).find? fun p => p.1 == c with
  | some p =>
    have hp : p ∈ asciiUppers.zip asciiLowers := List.mem_of_find?_eq_some hf
    have hall : ∀ q ∈ asciiUppers.zip asciiLowers, isUpperA q.2 = false := by decide
    exact hall p hp
  | none =>
    show isUpperA c = false
    by_contra hup
    rw [Bool.not_eq_false] at hup
    unfold isUpperA at hup
    rw [List.contains_eq_any_beq, List.any_eq_true] at hup
    rcases hup with ⟨u, hu, huc⟩
    have hlen : asciiUppers.length ≤ asciiLowers.length := by decide
    have hfst : (asciiUppers.zip asciiLowers).map Prod.fst = asciiUppers :=
      List.map_fst_zip _ _ hlen
    rw [← hfst] at hu
    rcases List.mem_map.mp hu with ⟨q, hq, hqu⟩
    have := List.find?_eq_none.mp hf q hq
    rw [hqu] at this
    rw [beq_iff_eq] at huc
    exact this (by rw [beq_iff_eq]; exact huc.symm)

theorem noUpper_lowerStr (s : Str) : noUpper (lowerStr s) := by
  intro c hc
  rcases List.mem_map.mp hc with ⟨d, -, hdc⟩
  rw [← hdc]
  exact isUpperA_lowerChar d

theorem noUpper_stripStr {s : Str} (h : noUpper s) : noUpper (stripStr s) := by
  apply noUpper_subset ?_ h
  intro c hc
  unfold stripStr at hc
  rw [List.mem_reverse] at hc
  have h1 := (List.dropWhile_sublist (l := (s.dropWhile isWs).reverse) isWs).mem hc
  rw [List.mem_reverse] at h1
  exact (List.dropWhile_sublist isWs).mem h1

theorem noUpper_drop {s : Str} (n : Nat) (h : noUpper s) : noUpper (s.drop n) :=
  noUpper_subset (fun c hc => (List.drop_sublist n s).mem hc) h

theorem noUpper_replaceAllF {pat rep : Str} (hrep : noUpper rep) :
    ∀ (fuel : Nat) (s : Str), noUpper s → noUpper (replaceAllF pat rep fuel s) := by
  intro fuel
  induction fuel with
  | zero => intro s hs; exact hs
  | succ f ih =>
    intro s hs
    rcases s with _ | ⟨c, rest⟩
    · exact hs
    cases pat with
    | nil => exact hs
    | cons p ps =>
      have heq : replaceAllF (p :: ps) rep (f + 1) (c :: rest) =
          if leadMatch (p :: ps) (c :: rest) then
            rep ++ replaceAllF (p :: ps) rep f (rest.drop ps.length)
          else c :: replaceAllF (p :: ps) rep f rest := rfl
      rw [heq]
      have hrest : noUpper rest :=
        noUpper_subset (fun d hd => List.mem_cons_of_mem c hd) hs
      split
      · intro x hx
        rcases List.mem_append.mp hx with hx | hx
        · exact hrep x hx
        · exact ih _ (noUpper_drop _ hrest) x hx
      · intro x hx
        rcases List.mem_cons.mp hx with hx | hx
        · rw [hx]; exact hs c (List.mem_cons_self c rest)
        · exact ih rest hrest x hx

theorem noUpper_replaceAll {pat rep s : Str} (hrep : noUpper rep) (hs : noUpper s) :
    noUpper (replaceAll pat rep s) :=
  noUpper_replaceAllF hrep s.length s hs

theorem noUpper_joinDash {ws : List Str} (h : ∀ w ∈ ws, noUpper w) :
    noUpper (joinDash ws) := by
  induction ws with
  | nil => intro c hc; simp [joinDash] at hc
  | cons w ws ih =>
    match ws with
    | [] => exact h w (List.mem_cons_self w [])
    | v :: vs =>
      have heq : joinDash (w :: v :: vs) = w ++ '-' :: joinDash (v :: vs) := rfl
      rw [heq]
      intro c hc
      rcases List.mem_append.mp hc with hc | hc
      · exact h w (List.mem_cons_self w _) c hc
      · rcases List.mem_cons.mp hc with rfl | hc
        · decide
        · exact ih (fun u hu => h u (List.mem_cons_of_mem w hu)) c hc

theorem noUpper_applyMappings {s : Str} (h : noUpper s) : noUpper (applyMappings s) := by
  unfold applyMappings
  refine foldl_preserve _ noUpper (fun p => noUpperB p.2 = true) slugMappings ?_ ?_ s h
  · decide
  · intro t p ht hp
    exact noUpper_replaceAll (noUpperB_iff.mp hp) ht

theorem noUpper_chineseToPinyin {pin : Str → List Str}
    (hpin : ∀ s w, w ∈ pin s → noUpper w) {s : Str} (h : noUpper s) :
    noUpper (chineseToPinyin pin s) := by
  unfold chineseToPinyin
  refine foldl_preserve _ noUpper (fun run => noUpper (joinDash (pin run)))
    (runsOf isCJK s) ?_ ?_ s h
  · intro run _
    exact noUpper_joinDash (fun w hw => hpin run w hw)
  · intro t run ht hq
    exact noUpper_replaceAll hq ht

theorem noUpper_cleanEnglishText {nf : Str → Str}
    (hnf : ∀ s, noUpper s → noUpper (nf s)) {s : Str} (h : noUpper s) :
    noUpper (cleanEnglishText nf s) := by
  unfold cleanEnglishText
  refine foldl_preserve _ noUpper (fun p => noUpperB p.2 = true)
    slugCharReplacements ?_ ?_ (nf s) (hnf s h)
  · decide
  · intro t p ht hp
    exact noUpper_replaceAll (noUpperB_iff.mp hp) ht

theorem splitChars_chars (p : Char → Bool) :
    ∀ (s : Str) (w : Str), w ∈ splitChars p s → ∀ c ∈ w, c ∈ s := by
  intro s
  induction s with
  | nil =>
    intro w hw c hc
    rw [splitChars] at hw
    rcases List.mem_singleton.mp hw with rfl
    simp at hc
  | cons a rest ih =>
    intro w hw c hc
    rcases hres : splitChars p rest with _ | ⟨h1, t1⟩
    · have hcons : splitChars p (a :: rest) =
          if p a = true then [[], []] else [[a]] := by
        rw [splitChars, hres]
      rw [hcons] at hw
      by_cases hp : p a = true
      · rw [if_pos hp] at hw
        rcases List.mem_cons.mp hw with rfl | hw2
        · simp at hc
        · rcases List.mem_singleton.mp hw2 with rfl
          simp at hc
      · rw [if_neg hp] at hw
        rcases List.mem_singleton.mp hw with rfl
        rcases List.mem_singleton.mp hc with rfl
        exact List.mem_cons_self _ _
    · have hcons : splitChars p (a :: rest) =
          if p a = true then [] :: h1 :: t1 else (a :: h1) :: t1 := by
        rw [splitChars, hres]
      rw [hcons] at hw
      by_cases hp : p a = true
      · rw [if_pos hp] at hw
        rcases List.mem_cons.mp hw with rfl | hw2
        · simp at hc
        · rcases List.mem_cons.mp hw2 with rfl | hw3
          · exact List.mem_cons_of_mem a
              (ih w (hres ▸ List.mem_cons_self w t1) c hc)
          · exact List.mem_cons_of_mem a
              (ih w (hres ▸ List.mem_cons_of_mem h1 hw3) c hc)
      · rw [if_neg hp] at hw
        rcases List.mem_cons.mp hw with rfl | hw2
        · rcases List.mem_cons.mp hc with rfl | hc2
          · exact List.mem_cons_self _ _
          · exact List.mem_cons_of_mem a
              (ih h1 (hres ▸ List.mem_cons_self h1 t1) c hc2)
        · exact List.mem_cons_of_mem a
            (ih w (hres ▸ List.mem_cons_of_mem h1 hw2) c hc)

theorem noUpper_removeStopWordsSlug {s : Str} (h : noUpper s) :
    noUpper (removeStopWordsSlug s) := by
  unfold removeStopWordsSlug
  apply noUpper_joinDash
  intro w hw
  have hw2 := (List.filter_sublist _).mem hw
  exact noUpper_subset (splitChars_chars _ s w hw2) h

/-- The character class [a-z0-9-] of a finished slug. -/
def isLowerSlugChar (c : Char) : Bool := isLowerA c || c.isDigit || c == '-'

/-- No two consecutive hyphens occur in s. -/
def noDD : Str → Bool
  | [] => true
  | [_] => true
  | a :: b :: rest => !(a == '-' && b == '-') && noDD (b :: rest)

/-- s does not start with a hyphen (vacuously true when empty). -/
def notDashHead : Str → Bool
  | [] => true
  | c :: _ => !(c == '-')

/-- The slug shape promised by the spec: non-empty, characters in [a-z0-9-],
no leading or trailing hyphen, no consecutive hyphens. -/
def goodSlugB (s : Str) : Bool :=
  !s.isEmpty && s.all isLowerSlugChar && notDashHead s && notDashHead s.reverse && noDD s

theorem goodSlugB_iff {s : Str} : goodSlugB s = true ↔
    s ≠ [] ∧ (∀ c ∈ s, isLowerSlugChar c = true) ∧ notDashHead s = true ∧
      notDashHead s.reverse = true ∧ noDD s = true := by
  unfold goodSlugB
  simp [List.all_eq_true, and_assoc, List.isEmpty_iff]

theorem isLowerSlugChar_of_keep {c : Char} (h1 : isSlugKeepChar c = true)
    (h2 : isUpperA c = false) : isLowerSlugChar c = true := by
  unfold isSlugKeepChar isAlphaA at h1
  unfold isLowerSlugChar
  rw [h2] at h1
  simpa using h1

theorem collapseDash_chars : ∀ (l : Str), ∀ c ∈ collapseDash l, c ∈ l := by
  intro l
  induction l using collapseDash.induct with
  | case1 => intro c hc; exact hc
  | case2 d => intro c hc; exact hc
  | case3 a b rest hd ih =>
    intro c hc
    rw [collapseDash, if_pos hd] at hc
    exact List.mem_cons_of_mem a (ih c hc)
  | case4 a b rest hd ih =>
    intro c hc
    rw [collapseDash, if_neg hd] at hc
    rcases List.mem_cons.mp hc with rfl | hc2
    · exact List.mem_cons_self _ _
    · exact List.mem_cons_of_mem a (ih c hc2)

theorem collapseDash_cons_head (b : Char) (rest : Str) :
    ∃ r, collapseDash (b :: rest) = b :: r := by
  induction rest generalizing b with
  | nil => exact ⟨[], rfl⟩
  | cons c rs ih =>
    by_cases hd : (b == '-' && c == '-') = true
    · rcases ih c with ⟨r, hr⟩
      rw [Bool.and_eq_true, beq_iff_eq, beq_iff_eq] at hd
      refine ⟨r, ?_⟩
      rw [collapseDash, if_pos (by rw [hd.1, hd.2]; decide), hr, hd.1, hd.2]
    · exact ⟨collapseDash (c :: rs), by rw [collapseDash, if_neg hd]⟩

theorem noDD_collapseDash : ∀ (l : Str), noDD (collapseDash l) = true := by
  intro l
  induction l using collapseDash.induct with
  | case1 => rfl
  | case2 d => rfl
  | case3 a b rest hd ih => rw [collapseDash, if_pos hd]; exact ih
  | case4 a b rest hd ih =>
    rw [collapseDash, if_neg hd]
    rcases collapseDash_cons_head b rest with ⟨r, hr⟩
    rw [hr]
    rw [hr] at ih
    rw [noDD, Bool.and_eq_true]
    exact ⟨by rw [Bool.not_eq_true']; exact eq_false_of_ne_true hd, ih⟩

theorem noDD_take : ∀ (s : Str), noDD s = true → ∀ n, noDD (s.take n) = true := by
  intro s
  induction s using noDD.induct with
  | case1 => intro _ n; cases n <;> rfl
  | case2 d =>
    intro _ n
    cases n with
    | zero => rfl
    | succ m => rw [List.take_succ_cons, List.take_nil]; rfl
  | case3 a b rest ih =>
    intro h n
    rw [noDD, Bool.and_eq_true] at h
    match n with
    | 0 => rfl
    | 1 => rfl
    | Nat.succ (Nat.succ m) =>
      have ht : (a :: b :: rest).take (m + 2) = a :: b :: rest.take m := rfl
      rw [ht, noDD, Bool.and_eq_true]
      exact ⟨h.1, ih h.2 (m + 1)⟩

theorem noDD_drop : ∀ (s : Str), noDD s = true → ∀ n, noDD (s.drop n) = true := by
  intro s
  induction s using noDD.induct with
  | case1 => intro _ n; cases n <;> rfl
  | case2 d =>
    intro h n
    cases n with
    | zero => exact h
    | succ m => rw [List.drop_succ_cons, List.drop_nil]; rfl
  | case3 a b rest ih =>
    intro h n
    rw [noDD, Bool.and_eq_true] at h
    match n with
    | 0 => rw [List.drop_zero, noDD, Bool.and_eq_true]; exact ⟨h.1, h.2⟩
    | Nat.succ m => exact ih h.2 m

theorem dropWhile_eq_drop (p : α → Bool) :
    ∀ (l : List α), l.dropWhile p = l.drop (l.takeWhile p).length := by
  intro l
  induction l with
  | nil => rfl
  | cons c rest ih =>
    by_cases hp : p c = true
    · rw [List.dropWhile_cons_of_pos hp, List.takeWhile_cons_of_pos hp]
      simpa using ih
    · rw [List.dropWhile_cons_of_neg hp,
        List.takeWhile_cons_of_neg hp]
      rfl

theorem rstrip_eq_take (s : Str) : ∃ m, rstripDash s = s.take m := by
  refine ⟨s.length - ((s.reverse.takeWhile fun c => c == '-')).length, ?_⟩
  unfold rstripDash
  rw [dropWhile_eq_drop]
  rw [List.reverse_drop, List.reverse_reverse, List.length_reverse]

theorem notDashHead_dropWhile_dash : ∀ (l : Str),
    notDashHead (l.dropWhile fun c => c == '-') = true := by
  intro l
  induction l with
  | nil => rfl
  | cons c rest ih =>
    by_cases hd : (c == '-') = true
    · rw [List.dropWhile_cons_of_pos (p := fun x => x == '-') hd]; exact ih
    · rw [List.dropWhile_cons_of_neg (p := fun x => x == '-') hd, notDashHead,
        Bool.not_eq_true']
      exact Bool.not_eq_true _ ▸ eq_false_of_ne_true hd

theorem notDashHead_take {s : Str} (h : notDashHead s = true) (m : Nat) :
    notDashHead (s.take m) = true := by
  cases s with
  | nil => cases m <;> rfl
  | cons c rest => cases m with
    | zero => rfl
    | succ k => exact h

theorem rstrip_last (u : Str) : notDashHead (rstripDash u).reverse = true := by
  unfold rstripDash
  rw [List.reverse_reverse]
  exact notDashHead_dropWhile_dash u.reverse

theorem rstrip_nil {l : Str} (h : rstripDash l = []) : ∀ c ∈ l, c = '-' := by
  unfold rstripDash at h
  rw [List.reverse_eq_nil_iff, List.dropWhile_eq_nil_iff] at h
  intro c hc
  have := h c (List.mem_reverse.mpr hc)
  exact beq_iff_eq.mp this

theorem normalizeSlug_good {s : Str} (h : noUpper s) :
    normalizeSlug s = [] ∨ goodSlugB (normalizeSlug s) = true := by
  by_cases hnil : normalizeSlug s = []
  · exact Or.inl hnil
  right
  have hform : normalizeSlug s =
      rstripDash ((collapseDash (s.map fun c => if isSlugKeepChar c then c
        else '-')).dropWhile fun c => c == '-') := rfl
  rw [hform] at hnil ⊢
  set u0 := s.map fun c => if isSlugKeepChar c then c else '-' with hu0
  set u1 := collapseDash u0 with hu1
  set u2 := u1.dropWhile fun c => c == '-' with hu2
  rcases rstrip_eq_take u2 with ⟨m, hm⟩
  have hchars0 : ∀ c ∈ u0, isLowerSlugChar c = true := by
    intro c hc
    rw [hu0] at hc
    rcases List.mem_map.mp hc with ⟨d, hd, hdc⟩
    by_cases hk : isSlugKeepChar d = true
    · rw [if_pos hk] at hdc
      rw [← hdc]
      exact isLowerSlugChar_of_keep hk (h d hd)
    · rw [if_neg hk] at hdc
      rw [← hdc]
      decide
  have hchars2 : ∀ c ∈ u2, isLowerSlugChar c = true := by
    intro c hc
    rw [hu2] at hc
    exact hchars0 c (collapseDash_chars u0 c ((List.dropWhile_sublist _).mem hc))
  have hnoDD2 : noDD u2 = true := by
    rw [hu2, dropWhile_eq_drop]
    exact noDD_drop u1 (noDD_collapseDash u0) _
  rw [goodSlugB_iff]
  refine ⟨hnil, ?_, ?_, rstrip_last u2, ?_⟩
  · intro c hc
    rw [hm] at hc
    exact hchars2 c ((List.take_sublist m u2).mem hc)
  · rw [hm]
    refine notDashHead_take ?_ m
    rw [hu2]
    exact notDashHead_dropWhile_dash u1
  · rw [hm]
    exact noDD_take u2 hnoDD2 m

theorem truncateSlug_good {s : Str} {L : Nat} (hL : 1 ≤ L) (h : goodSlugB s = true) :
    goodSlugB (truncateSlug s L) = true := by
  rw [goodSlugB_iff] at h
  obtain ⟨hne, hchars, hhead, hlast, hDD⟩ := h
  unfold truncateSlug
  split
  · rw [goodSlugB_iff]
    exact ⟨hne, hchars, hhead, hlast, hDD⟩
  · have key : ∀ M, 1 ≤ M → goodSlugB (rstripDash (s.take M)) = true := by
      intro M hM
      rcases rstrip_eq_take (s.take M) with ⟨m2, hm2⟩
      have hne2 : rstripDash (s.take M) ≠ [] := by
        intro hnil
        rcases s with _ | ⟨a, rest⟩
        · exact absurd rfl hne
        · rcases M with _ | M2
          · exact absurd hM (by omega)
          · have ha : a ∈ (a :: rest).take (M2 + 1) := by
              rw [List.take_succ_cons]
              exact List.mem_cons_self _ _
            have hda := rstrip_nil hnil a ha
            rw [hda, notDashHead] at hhead
            exact absurd hhead (by decide)
      rw [goodSlugB_iff]
      refine ⟨hne2, ?_, ?_, rstrip_last _, ?_⟩
      · intro c hc
        rw [hm2] at hc
        exact hchars c ((List.take_sublist _ _).mem ((List.take_sublist _ _).mem hc))
      · rw [hm2]
        exact notDashHead_take (notDashHead_take hhead M) m2
      · rw [hm2]
        exact noDD_take _ (noDD_take s hDD M) m2
    show goodSlugB (rstripDash (if (L : ℚ) * (7 / 10) < ((rfindDash (List.take L s)) : ℚ)
      then (List.take L s).take (rfindDash (List.take L s)).toNat
      else List.take L s)) = true
    split
    · rename_i hcond
      rw [List.take_take]
      have hL1 : (1 : ℚ) ≤ (L : ℚ) := by exact_mod_cast hL
      have hpos7 : (0 : ℚ) < (L : ℚ) * (7 / 10) := by nlinarith
      have hpos : (0 : ℚ) < ((rfindDash (List.take L s)) : ℚ) := lt_trans hpos7 hcond
      have hpos2 : 0 < rfindDash (List.take L s) := by exact_mod_cast hpos
      exact key _ (by omega)
    · exact key L hL

theorem digit_not_dash {c : Char} (h : c.isDigit = true) : (c == '-') = false := by
  by_contra hne
  rw [Bool.not_eq_false, beq_iff_eq] at hne
  subst hne
  exact absurd h (by decide)

theorem noDD_of_no_dash : ∀ (l : Str), (∀ c ∈ l, (c == '-') = false) → noDD l = true := by
  intro l
  induction l using noDD.induct with
  | case1 => intro _; rfl
  | case2 d => intro _; rfl
  | case3 a b rest ih =>
    intro h
    rw [noDD, Bool.and_eq_true]
    constructor
    · rw [Bool.not_eq_true', h a (List.mem_cons_self _ _)]
      rfl
    · exact ih fun c hc => h c (List.mem_cons_of_mem a hc)

theorem noDD_append : ∀ (l1 : Str), noDD l1 = true → ∀ (l2 : Str), noDD l2 = true →
    (∀ a b, l1.getLast? = some a → l2.head? = some b → (a == '-' && b == '-') = false) →
    noDD (l1 ++ l2) = true := by
  intro l1
  induction l1 using noDD.induct with
  | case1 =>
    intro _ l2 h2 _
    simpa using h2
  | case2 d =>
    intro _ l2 h2 hj
    rcases l2 with _ | ⟨b, r⟩
    · rfl
    · have he : ([d] ++ b :: r) = d :: b :: r := rfl
      rw [he, noDD, Bool.and_eq_true]
      refine ⟨?_, h2⟩
      rw [Bool.not_eq_true']
      exact hj d b rfl rfl
  | case3 a b rest ih =>
    intro h1 l2 h2 hj
    rw [noDD, Bool.and_eq_true] at h1
    rw [List.cons_append, List.cons_append, noDD, Bool.and_eq_true]
    refine ⟨h1.1, ?_⟩
    have hrec := ih h1.2 l2 h2 fun x y hx hy =>
      hj x y (by rw [List.getLast?_cons_cons]; exact hx) hy
    rw [List.cons_append] at hrec
    exact hrec

theorem notDashHead_append_left {l1 l2 : Str} (h1 : l1 ≠ [])
    (h : notDashHead l1 = true) : notDashHead (l1 ++ l2) = true := by
  rcases l1 with _ | ⟨c, r⟩
  · exact absurd rfl h1
  · exact h

theorem getLast_not_dash {l : Str} (h : notDashHead l.reverse = true) :
    ∀ x, l.getLast? = some x → (x == '-') = false := by
  intro x hx
  rw [← List.head?_reverse] at hx
  rcases hr : l.reverse with _ | ⟨c, r⟩
  · rw [hr] at hx
    exact absurd hx (by simp)
  · rw [hr] at hx
    have hcx : c = x := by simpa using hx
    rw [hr, notDashHead, Bool.not_eq_true'] at h
    rw [← hcx]
    exact h

theorem notDashHead_reverse_of_digits {now : Str} (h2 : ∀ c ∈ now, c.isDigit = true) :
    notDashHead now.reverse = true := by
  rcases hr : now.reverse with _ | ⟨c, r⟩
  · rfl
  · rw [notDashHead, Bool.not_eq_true']
    have hc : c ∈ now := List.mem_reverse.mp (hr ▸ List.mem_cons_self c r)
    exact digit_not_dash (h2 c hc)

theorem fallbackSlug_good {now : Str} (h1 : now ≠ []) (h2 : ∀ c ∈ now, c.isDigit = true) :
    goodSlugB (fallbackSlug now) = true := by
  have hform : fallbackSlug now = S "post-" ++ now := rfl
  rw [hform, goodSlugB_iff]
  refine ⟨?_, ?_, rfl, ?_, ?_⟩
  · have he : S "post-" ++ now = 'p' :: (S "ost-" ++ now) := rfl
    rw [he]
    exact List.cons_ne_nil _ _
  · intro c hc
    rcases List.mem_append.mp hc with hc | hc
    · have hall : ∀ c ∈ S "post-", isLowerSlugChar c = true := by decide
      exact hall c hc
    · unfold isLowerSlugChar
      rw [h2 c hc]
      simp
  · rw [List.reverse_append]
    refine notDashHead_append_left ?_ (notDashHead_reverse_of_digits h2)
    rwa [ne_eq, List.reverse_eq_nil_iff]
  · refine noDD_append (S "post-") (by decide) now
      (noDD_of_no_dash now fun c hc => digit_not_dash (h2 c hc)) ?_
    intro a b ha hb
    have ha2 : a = '-' := by
      have hl : (S "post-").getLast? = some '-' := by decide
      rw [hl] at ha
      injection ha with hh
      exact hh.symm
    have hbmem : b ∈ now := by
      rcases now with _ | ⟨d, r⟩
      · simp at hb
      · have : d = b := by simpa using hb
        rw [← this]
        exact List.mem_cons_self d r
    rw [ha2, digit_not_dash (h2 b hbmem)]
    rfl

theorem validateSlug_good {now slug : Str} (h1 : now ≠ [])
    (h2 : ∀ c ∈ now, c.isDigit = true)
    (h : slug = [] ∨ goodSlugB slug = true) :
    goodSlugB (validateSlug now slug) = true := by
  rcases h with rfl | hgood
  · exact fallbackSlug_good h1 h2
  rcases slug with _ | ⟨c, rest⟩
  · exact fallbackSlug_good h1 h2
  rw [goodSlugB_iff] at hgood
  obtain ⟨hne, hchars, hhead, hlast, hDD⟩ := hgood
  by_cases hd : c.isDigit = true
  · have hv : validateSlug now (c :: rest) =
        if (S "post-" ++ (c :: rest)).length < 3 then (S "post-" ++ (c :: rest)) ++ S "-post"
        else S "post-" ++ (c :: rest) := by
      show (let s2 := if c.isDigit then S "post-" ++ (c :: rest) else c :: rest;
            if s2.length < 3 then s2 ++ S "-post" else s2) = _
      rw [if_pos hd]
    have hlen : ¬((S "post-" ++ (c :: rest)).length < 3) := by
      rw [List.length_append]
      have h5 : (S "post-").length = 5 := rfl
      rw [h5]
      omega
    rw [hv, if_neg hlen, goodSlugB_iff]
    refine ⟨?_, ?_, rfl, ?_, ?_⟩
    · have he : S "post-" ++ (c :: rest) = 'p' :: (S "ost-" ++ (c :: rest)) := rfl
      rw [he]
      exact List.cons_ne_nil _ _
    · intro x hx
      rcases List.mem_append.mp hx with hx | hx
      · have hall : ∀ x ∈ S "post-", isLowerSlugChar x = true := by decide
        exact hall x hx
      · exact hchars x hx
    · rw [List.reverse_append]
      exact notDashHead_append_left (by simp) hlast
    · refine noDD_append (S "post-") (by decide) (c :: rest) hDD ?_
      intro a b ha hb
      have ha2 : a = '-' := by
        have hl : (S "post-").getLast? = some '-' := by decide
        rw [hl] at ha
        injection ha with hh
        exact hh.symm
      have hb2 : b = c := by simpa using hb.symm
      rw [ha2, hb2, digit_not_dash hd]
      rfl
  · have hv : validateSlug now (c :: rest) =
        if (c :: rest).length < 3 then (c :: rest) ++ S "-post" else c :: rest := by
      show (let s2 := if c.isDigit then S "post-" ++ (c :: rest) else c :: rest;
            if s2.length < 3 then s2 ++ S "-post" else s2) = _
      rw [if_neg hd]
    rw [hv]
    by_cases hl3 : (c :: rest).length < 3
    · rw [if_pos hl3, goodSlugB_iff]
      refine ⟨by simp, ?_, ?_, ?_, ?_⟩
      · intro x hx
        rcases List.mem_append.mp hx with hx | hx
        · exact hchars x hx
        · have hall : ∀ x ∈ S "-post", isLowerSlugChar x = true := by decide
          exact hall x hx
      · exact notDashHead_append_left (List.cons_ne_nil c rest) hhead
      · rw [List.reverse_append]
        refine notDashHead_append_left (by decide) ?_
        decide
      · refine noDD_append (c :: rest) hDD (S "-post") (by decide) ?_
        intro a b ha hb
        rw [getLast_not_dash hlast a ha]
        rfl
    · rw [if_neg hl3, goodSlugB_iff]
      exact ⟨hne, hchars, hhead, hlast, hDD⟩

/-- The character shape guaranteed by _normalize_slug's character class
[a-zA-Z0-9-]: non-empty, only ASCII letters, digits and hyphens, no leading
or trailing hyphen, no two consecutive hyphens.  Unlike goodSlugB it admits
uppercase, which _normalize_slug keeps. -/
def goodSlugAsciiB (s : Str) : Bool :=
  !s.isEmpty && s.all isSlugKeepChar && notDashHead s && notDashHead s.reverse && noDD s

theorem goodSlugAsciiB_iff {s : Str} : goodSlugAsciiB s = true ↔
    s ≠ [] ∧ (∀ c ∈ s, isSlugKeepChar c = true) ∧ notDashHead s = true ∧
      notDashHead s.reverse = true ∧ noDD s = true := by
  unfold goodSlugAsciiB
  simp [List.all_eq_true, and_assoc, List.isEmpty_iff]

theorem normalizeSlug_goodA (s : Str) :
    normalizeSlug s = [] ∨ goodSlugAsciiB (normalizeSlug s) = true := by
  by_cases hnil : normalizeSlug s = []
  · exact Or.inl hnil
  right
  have hform : normalizeSlug s =
      rstripDash ((collapseDash (s.map fun c => if isSlugKeepChar c then c
        else '-')).dropWhile fun c => c == '-') := rfl
  rw [hform] at hnil ⊢
  set u0 := s.map fun c => if isSlugKeepChar c then c else '-' with hu0
  set u1 := collapseDash u0 with hu1
  set u2 := u1.dropWhile fun c => c == '-' with hu2
  rcases rstrip_eq_take u2 with ⟨m, hm⟩
  have hchars0 : ∀ c ∈ u0, isSlugKeepChar c = true := by
    intro c hc
    rw [hu0] at hc
    rcases List.mem_map.mp hc with ⟨d, hd, hdc⟩
    by_cases hk : isSlugKeepChar d = true
    · rw [if_pos hk] at hdc
      rw [← hdc]
      exact hk
    · rw [if_neg hk] at hdc
      rw [← hdc]
      decide
  have hchars2 : ∀ c ∈ u2, isSlugKeepChar c = true := by
    intro c hc
    rw [hu2] at hc
    exact hchars0 c (collapseDash_chars u0 c ((List.dropWhile_sublist _).mem hc))
  have hnoDD2 : noDD u2 = true := by
    rw [hu2, dropWhile_eq_drop]
    exact noDD_drop u1 (noDD_collapseDash u0) _
  rw [goodSlugAsciiB_iff]
  refine ⟨hnil, ?_, ?_, rstrip_last u2, ?_⟩
  · intro c hc
    rw [hm] at hc
    exact hchars2 c ((List.take_sublist m u2).mem hc)
  · rw [hm]
    refine notDashHead_take ?_ m
    rw [hu2]
    exact notDashHead_dropWhile_dash u1
  · rw [hm]
    exact noDD_take u2 hnoDD2 m

theorem truncateSlug_goodA {s : Str} {L : Nat} (hL : 1 ≤ L)
    (h : goodSlugAsciiB s = true) : goodSlugAsciiB (truncateSlug s L) = true := by
  rw [goodSlugAsciiB_iff] at h
  obtain ⟨hne, hchars, hhead, hlast, hDD⟩ := h
  unfold truncateSlug
  split
  · rw [goodSlugAsciiB_iff]
    exact ⟨hne, hchars, hhead, hlast, hDD⟩
  · have key : ∀ M, 1 ≤ M → goodSlugAsciiB (rstripDash (s.take M)) = true := by
      intro M hM
      rcases rstrip_eq_take (s.take M) with ⟨m2, hm2⟩
      have hne2 : rstripDash (s.take M) ≠ [] := by
        intro hnil
        rcases s with _ | ⟨a, rest⟩
        · exact absurd rfl hne
        · rcases M with _ | M2
          · exact absurd hM (by omega)
          · have ha : a ∈ (a :: rest).take (M2 + 1) := by
              rw [List.take_succ_cons]
              exact List.mem_cons_self _ _
            have hda := rstrip_nil hnil a ha
            rw [hda, notDashHead] at hhead
            exact absurd hhead (by decide)
      rw [goodSlugAsciiB_iff]
      refine ⟨hne2, ?_, ?_, rstrip_last _, ?_⟩
      · intro c hc
        rw [hm2] at hc
        exact hchars c ((List.take_sublist _ _).mem ((List.take_sublist _ _).mem hc))
      · rw [hm2]
        exact notDashHead_take (notDashHead_take hhead M) m2
      · rw [hm2]
        exact noDD_take _ (noDD_take s hDD M) m2
    show goodSlugAsciiB (rstripDash (if (L : ℚ) * (7 / 10) < ((rfindDash (List.take L s)) : ℚ)
      then (List.take L s).take (rfindDash (List.take L s)).toNat
      else List.take L s)) = true
    split
    · rename_i hcond
      rw [List.take_take]
      have hL1 : (1 : ℚ) ≤ (L : ℚ) := by exact_mod_cast hL
      have hpos7 : (0 : ℚ) < (L : ℚ) * (7 / 10) := by nlinarith
      have hpos : (0 : ℚ) < ((rfindDash (List.take L s)) : ℚ) := lt_trans hpos7 hcond
      have hpos2 : 0 < rfindDash (List.take L s) := by exact_mod_cast hpos
      exact key _ (by omega)
    · exact key L hL

theorem fallbackSlug_goodA {now : Str} (h1 : now ≠ [])
    (h2 : ∀ c ∈ now, c.isDigit = true) : goodSlugAsciiB (fallbackSlug now) = true := by
  have hform : fallbackSlug now = S "post-" ++ now := rfl
  rw [hform, goodSlugAsciiB_iff]
  refine ⟨?_, ?_, rfl, ?_, ?_⟩
  · have he : S "post-" ++ now = 'p' :: (S "ost-" ++ now) := rfl
    rw [he]
    exact List.cons_ne_nil _ _
  · intro c hc
    rcases List.mem_append.mp hc with hc | hc
    · have hall : ∀ c ∈ S "post-", isSlugKeepChar c = true := by decide
      exact hall c hc
    · unfold isSlugKeepChar
      rw [h2 c hc]
      simp
  · rw [List.reverse_append]
    refine notDashHead_append_left ?_ (notDashHead_reverse_of_digits h2)
    rwa [ne_eq, List.reverse_eq_nil_iff]
  · refine noDD_append (S "post-") (by decide) now
      (noDD_of_no_dash now fun c hc => digit_not_dash (h2 c hc)) ?_
    intro a b ha hb
    have ha2 : a = '-' := by
      have hl : (S "post-").getLast? = some '-' := by decide
      rw [hl] at ha
      injection ha with hh
      exact hh.symm
    have hbmem : b ∈ now := by
      rcases now with _ | ⟨d, r⟩
      · simp at hb
      · have : d = b := by simpa using hb
        rw [← this]
        exact List.mem_cons_self d r
    rw [ha2, digit_not_dash (h2 b hbmem)]
    rfl

theorem validateSlug_goodA {now slug : Str} (h1 : now ≠ [])
    (h2 : ∀ c ∈ now, c.isDigit = true)
    (h : slug = [] ∨ goodSlugAsciiB slug = true) :
    goodSlugAsciiB (validateSlug now slug) = true := by
  rcases h with rfl | hgood
  · exact fallbackSlug_goodA h1 h2
  rcases slug with _ | ⟨c, rest⟩
  · exact fallbackSlug_goodA h1 h2
  rw [goodSlugAsciiB_iff] at hgood
  obtain ⟨hne, hchars, hhead, hlast, hDD⟩ := hgood
  by_cases hd : c.isDigit = true
  · have hv : validateSlug now (c :: rest) =
        if (S "post-" ++ (c :: rest)).length < 3 then (S "post-" ++ (c :: rest)) ++ S "-post"
        else S "post-" ++ (c :: rest) := by
      show (let s2 := if c.isDigit then S "post-" ++ (c :: rest) else c :: rest;
            if s2.length < 3 then s2 ++ S "-post" else s2) = _
      rw [if_pos hd]
    have hlen : ¬((S "post-" ++ (c :: rest)).length < 3) := by
      rw [List.length_append]
      have h5 : (S "post-").length = 5 := rfl
      rw [h5]
      omega
    rw [hv, if_neg hlen, goodSlugAsciiB_iff]
    refine ⟨?_, ?_, rfl, ?_, ?_⟩
    · have he : S "post-" ++ (c :: rest) = 'p' :: (S "ost-" ++ (c :: rest)) := rfl
      rw [he]
      exact List.cons_ne_nil _ _
    · intro x hx
      rcases List.mem_append.mp hx with hx | hx
      · have hall : ∀ x ∈ S "post-", isSlugKeepChar x = true := by decide
        exact hall x hx
      · exact hchars x hx
    · rw [List.reverse_append]
      exact notDashHead_append_left (by simp) hlast
    · refine noDD_append (S "post-") (by decide) (c :: rest) hDD ?_
      intro a b ha hb
      have ha2 : a = '-' := by
        have hl : (S "post-").getLast? = some '-' := by decide
        rw [hl] at ha
        injection ha with hh
        exact hh.symm
      have hb2 : b = c := by simpa using hb.symm
      rw [ha2, hb2, digit_not_dash hd]
      rfl
  · have hv : validateSlug now (c :: rest) =
        if (c :: rest).length < 3 then (c :: rest) ++ S "-post" else c :: rest := by
      show (let s2 := if c.isDigit then S "post-" ++ (c :: rest) else c :: rest;
            if s2.length < 3 then s2 ++ S "-post" else s2) = _
      rw [if_neg hd]
    rw [hv]
    by_cases hl3 : (c :: rest).length < 3
    · rw [if_pos hl3, goodSlugAsciiB_iff]
      refine ⟨by simp, ?_, ?_, ?_, ?_⟩
      · intro x hx
        rcases List.mem_append.mp hx with hx | hx
        · exact hchars x hx
        · have hall : ∀ x ∈ S "-post", isSlugKeepChar x = true := by decide
          exact hall x hx
      · exact notDashHead_append_left (List.cons_ne_nil c rest) hhead
      · rw [List.reverse_append]
        refine notDashHead_append_left (by decide) ?_
        decide
      · refine noDD_append (c :: rest) hDD (S "-post") (by decide) ?_
        intro a b ha hb
        rw [getLast_not_dash hlast a ha]
        rfl
    · rw [if_neg hl3, goodSlugAsciiB_iff]
      exact ⟨hne, hchars, hhead, hlast, hDD⟩

/-- A fixed pinyin segmentation used by the C9 theorems: every CJK run of the
concrete titles below transliterates to these lowercase syllables. -/
def pinW9 : Str → List Str :=
  fun _ => [S "kuai", S "su", S "pai", S "xu", S "suan", S "fa"]

/-- unicodedata.normalize('NFKD', ·) restricted to strings whose only
compatibility character is the trademark sign: NFKD decomposes ™ (U+2122)
into the two ASCII letters TM and leaves ASCII characters unchanged. -/
def nfTM (s : Str) : Str := replaceAll [Char.ofNat 0x2122] (S "TM") s

set_option maxRecDepth 10000 in
/-- C9 counterexample: NFKD compatibility decomposition turns ™ into the
uppercase letters TM (str.lower leaves ™ unchanged, so it reaches NFKD as
is), and _normalize_slug's character class [a-zA-Z0-9-] keeps uppercase, so
generate_slug("Blog™") returns "blogTM" — neither lowercase nor
[a-z0-9-]-only, refuting the original claim for a non-empty title even with
a non-empty digit timestamp. -/
theorem C9_slug_counterexample :
    generateSlug pinW9 nfTM (S "20240101120000") (S "20240101") (S "Blog™") 60 true false =
      S "blogTM" ∧
    goodSlugB (S "blogTM") = false ∧
    S "Blog™" ≠ ([] : Str) ∧ (∀ c ∈ S "20240101120000", c.isDigit = true) :=
  ⟨by decide, by decide, by decide, by decide⟩

/-- C9 amended: for every non-empty title, generate_slug with default
arguments (max_length 60, use_pinyin, no date) returns a non-empty string
over [a-zA-Z0-9-] that does not start or end with a hyphen and has no two
consecutive hyphens, for arbitrary pinyin and NFKD collaborators and a
non-empty digit timestamp; the empty title yields the non-empty fallback
post-<timestamp>.  The slug is moreover fully lowercase whenever the
transliteration outputs contain no ASCII uppercase — which holds for the
spec's CJK example, but fails for NFKD on compatibility characters such as
™ → TM. -/
theorem C9_slug_amended (pin : Str → List Str) (nf : Str → Str) (now today : Str)
    (hnow1 : now ≠ []) (hnow2 : ∀ c ∈ now, c.isDigit = true) :
    (∀ title, title ≠ [] →
      goodSlugAsciiB (generateSlug pin nf now today title 60 true false) = true) ∧
    (generateSlug pin nf now today [] 60 true false = S "post-" ++ now ∧
      generateSlug pin nf now today [] 60 true false ≠ []) ∧
    ((∀ s w, w ∈ pin s → noUpper w) → (∀ s, noUpper s → noUpper (nf s)) →
      ∀ title, title ≠ [] →
        goodSlugB (generateSlug pin nf now today title 60 true false) = true) := by
  refine ⟨?_, ⟨rfl, ?_⟩, ?_⟩
  · intro title ht
    have hform : generateSlug pin nf now today title 60 true false =
        validateSlug now (truncateSlug (normalizeSlug (removeStopWordsSlug
          (cleanEnglishText nf (chineseToPinyin pin (applyMappings
            (stripStr (lowerStr title))))))) 60) := by
      unfold generateSlug
      rw [if_neg ht]
      simp only [reduceIte, Bool.false_eq_true, if_false]
    rw [hform]
    apply validateSlug_goodA hnow1 hnow2
    rcases normalizeSlug_goodA (removeStopWordsSlug (cleanEnglishText nf
        (chineseToPinyin pin (applyMappings (stripStr (lowerStr title)))))) with hnil | hgood
    · left
      rw [hnil]
      rfl
    · right
      exact truncateSlug_goodA (by omega) hgood
  · have h0 : generateSlug pin nf now today [] 60 true false = S "post-" ++ now := rfl
    rw [h0]
    have he : S "post-" ++ now = 'p' :: (S "ost-" ++ now) := rfl
    rw [he]
    exact List.cons_ne_nil _ _
  · intro hpin hnf title ht
    have hform : generateSlug pin nf now today title 60 true false =
        validateSlug now (truncateSlug (normalizeSlug (removeStopWordsSlug
          (cleanEnglishText nf (chineseToPinyin pin (applyMappings
            (stripStr (lowerStr title))))))) 60) := by
      unfold generateSlug
      rw [if_neg ht]
      simp only [reduceIte, Bool.false_eq_true, if_false]
    rw [hform]
    apply validateSlug_good hnow1 hnow2
    have hnu : noUpper (removeStopWordsSlug (cleanEnglishText nf (chineseToPinyin pin
        (applyMappings (stripStr (lowerStr title)))))) :=
      noUpper_removeStopWordsSlug (noUpper_cleanEnglishText hnf
        (noUpper_chineseToPinyin hpin (noUpper_applyMappings
          (noUpper_stripStr (noUpper_lowerStr title)))))
    rcases normalizeSlug_good hnu with hnil | hgood
    · left
      rw [hnil]
      rfl
    · right
      exact truncateSlug_good (by omega) hgood

/-- Witness for the amended C9 at the NFKD counterexample title (the ascii
shape holds even for "blogTM"), the empty title, and the spec's CJK
round-trip example with lowercase transliteration outputs. -/
theorem C9_slug_amended_witness :
    goodSlugAsciiB (generateSlug pinW9 nfTM (S "20240101120000") (S "20240101")
        (S "Blog™") 60 true false) = true ∧
    generateSlug pinW9 nfTM (S "20240101120000") (S "20240101") [] 60 true false =
      S "post-" ++ S "20240101120000" ∧
    goodSlugB (generateSlug pinW9 id (S "20240101120000") (S "20240101")
        (S "Python快速排序算法") 60 true false) = true := by
  have hmain := C9_slug_amended pinW9 nfTM (S "20240101120000") (S "20240101")
    (by decide) (by decide)
  have hcjk := C9_slug_amended pinW9 id (S "20240101120000") (S "20240101")
    (by decide) (by decide)
  refine ⟨hmain.1 (S "Blog™") (by decide), hmain.2.1.1, ?_⟩
  refine hcjk.2.2 ?_ (fun s h => h) (S "Python快速排序算法") (by decide)
  intro s w hw
  simp only [pinW9, List.mem_cons, List.not_mem_nil, or_false] at hw
  rcases hw with rfl | rfl | rfl | rfl | rfl | rfl <;>
    exact noUpperB_iff.mp (by decide)

end Portal
